import Mathlib

set_option maxHeartbeats 1000000
set_option autoImplicit false

/-!
Shallow embedding of `crates/ra_hir_ty/src/method_resolution.rs`: the method
and trait resolution engine.  Identifiers of the external stores (crates,
impls, traits, functions, constants, ADTs, names) are opaque and modelled as
natural numbers.  External collaborators that live outside this file in the
original program (the trait-satisfiability oracle, the unifier, the autoderef
step generator, the per-id data store) are supplied as fields of a `DB`
structure, so that every function of the source file becomes a pure Lean
function of the database and its arguments.
-/

namespace MethodResolution

/-- Crate identifier (`ra_db::CrateId`). -/
abbrev CrateId := Nat
/-- Impl block identifier (`hir_def::ImplId`). -/
abbrev ImplId := Nat
/-- Trait identifier (`hir_def::TraitId`). -/
abbrev TraitId := Nat
/-- Function identifier (`hir_def::FunctionId`). -/
abbrev FunctionId := Nat
/-- Const identifier (`hir_def::ConstId`). -/
abbrev ConstId := Nat
/-- Type alias identifier (`hir_def::TypeAliasId`). -/
abbrev TypeAliasId := Nat
/-- ADT (struct/enum/union) identifier. -/
abbrev AdtId := Nat
/-- Item name (`hir_expand::name::Name`), opaque. -/
abbrev HirName := Nat

/-- `hir_def::type_ref::Mutability`. -/
inductive Mutability
  | Shared
  | Mut
deriving DecidableEq, Repr

/-- `crate::primitive::FloatBitness`. -/
inductive FloatBitness
  | X32
  | X64
deriving DecidableEq, Repr

/-- Signedness of an integer primitive (`crate::primitive::Signedness`). -/
inductive Signedness
  | Signed
  | Unsigned
deriving DecidableEq, Repr

/-- Bit width of an integer primitive (`crate::primitive::IntBitness`). -/
inductive IntBitness
  | Xsize
  | X8
  | X16
  | X32
  | X64
  | X128
deriving DecidableEq, Repr

/-- An integer primitive type (`crate::primitive::IntTy`). -/
structure IntTy where
  signedness : Signedness
  bitness : IntBitness
deriving DecidableEq, Repr

/-- `IntTy::ty_to_string`, producing the lang-item name used by `def_crates`. -/
def IntTy.ty_to_string (i : IntTy) : String :=
  match i.signedness, i.bitness with
  | .Signed, .Xsize => "isize"
  | .Signed, .X8 => "i8"
  | .Signed, .X16 => "i16"
  | .Signed, .X32 => "i32"
  | .Signed, .X64 => "i64"
  | .Signed, .X128 => "i128"
  | .Unsigned, .Xsize => "usize"
  | .Unsigned, .X8 => "u8"
  | .Unsigned, .X16 => "u16"
  | .Unsigned, .X32 => "u32"
  | .Unsigned, .X64 => "u64"
  | .Unsigned, .X128 => "u128"

/-- `crate::TypeCtor`: the outer constructor of an applied type. -/
inductive TypeCtor
  | Bool
  | Char
  | Int (t : IntTy)
  | Float (bitness : FloatBitness)
  | Adt (def_id : AdtId)
  | Str
  | Slice
  | Array
  | RawPtr (m : Mutability)
  | Ref (m : Mutability)
  | Never
  | Tuple (cardinality : Nat)
  | FnPtr (num_args : Nat)
deriving DecidableEq, Repr

/-- `crate::Ty`.  `Apply` covers `Ty::Apply(ApplicationTy { ctor, parameters })`.
`Dyn` is modelled from the spec with its principal trait only (the source
stores a predicate list and `dyn_trait()` extracts the implemented trait);
`Bound` carries a single de Bruijn-free index since no binders occur in the
types this engine manipulates at query time. -/
inductive Ty
  | Apply (ctor : TypeCtor) (parameters : List Ty)
  | Placeholder (id : Nat)
  | Bound (idx : Nat)
  | Dyn (trait_ : TraitId)
  | Unknown

mutual

/-- Structural (boolean) equality on `Ty`. -/
def Ty.beq : Ty → Ty → Bool
  | .Apply c1 p1, .Apply c2 p2 => c1 == c2 && Ty.beqList p1 p2
  | .Placeholder a, .Placeholder b => a == b
  | .Bound a, .Bound b => a == b
  | .Dyn a, .Dyn b => a == b
  | .Unknown, .Unknown => true
  | _, _ => false

/-- Structural equality on lists of `Ty`. -/
def Ty.beqList : List Ty → List Ty → Bool
  | [], [] => true
  | a :: as, b :: bs => Ty.beq a b && Ty.beqList as bs
  | _, _ => false

end

mutual

theorem Ty.beq_iff : (a b : Ty) → (Ty.beq a b = true ↔ a = b)
  | .Apply c1 p1, .Apply c2 p2 => by
    simp only [Ty.beq, Bool.and_eq_true, beq_iff_eq, Ty.beqList_iff p1 p2, Ty.Apply.injEq]
  | .Apply _ _, .Placeholder _ => by simp [Ty.beq]
  | .Apply _ _, .Bound _ => by simp [Ty.beq]
  | .Apply _ _, .Dyn _ => by simp [Ty.beq]
  | .Apply _ _, .Unknown => by simp [Ty.beq]
  | .Placeholder _, b => by cases b <;> simp [Ty.beq]
  | .Bound _, b => by cases b <;> simp [Ty.beq]
  | .Dyn _, b => by cases b <;> simp [Ty.beq]
  | .Unknown, b => by cases b <;> simp [Ty.beq]

theorem Ty.beqList_iff : (a b : List Ty) → (Ty.beqList a b = true ↔ a = b)
  | [], [] => by simp [Ty.beqList]
  | [], _ :: _ => by simp [Ty.beqList]
  | _ :: _, [] => by simp [Ty.beqList]
  | x :: xs, y :: ys => by
    simp only [Ty.beqList, Bool.and_eq_true, Ty.beq_iff x y, Ty.beqList_iff xs ys,
      List.cons.injEq]

end

instance : DecidableEq Ty := fun a b => decidable_of_iff _ (Ty.beq_iff a b)

/-- `Ty::apply_one`. -/
def Ty.apply_one (ctor : TypeCtor) (param : Ty) : Ty :=
  Ty.Apply ctor [param]

/-- `Ty::dyn_trait`: the principal trait of a `dyn Trait` type, if any. -/
def Ty.dyn_trait : Ty → Option TraitId
  | .Dyn t => some t
  | _ => none

/-- `crate::Canonical<T>`: a value together with the number of canonical
inference variables ("holes") it may mention. -/
structure Canonical (α : Type) where
  num_vars : Nat
  value : α
deriving DecidableEq

/-- This is used as a key for indexing impls (`TyFingerprint`). -/
inductive TyFingerprint
  | Apply (ctor : TypeCtor)
deriving DecidableEq, Repr

/-- `TyFingerprint::for_impl`: creates a `TyFingerprint` for looking up an
impl.  The source matches `Ty::Apply(a_ty) => Some(TyFingerprint::Apply(a_ty.ctor))`
and returns `None` for every other `Ty` variant. -/
def TyFingerprint.for_impl : Ty → Option TyFingerprint
  | .Apply ctor _ => some (TyFingerprint.Apply ctor)
  | _ => none

/-- `hir_def::AssocItemId`. -/
inductive AssocItemId
  | FunctionId (f : FunctionId)
  | ConstId (c : ConstId)
  | TypeAliasId (t : TypeAliasId)
deriving DecidableEq, Repr

/-- `hir_def::AssocContainerId`: the container a function is declared in. -/
inductive AssocContainerId
  | TraitId (t : TraitId)
  | ImplId (i : ImplId)
  | ContainerId (m : Nat)
deriving DecidableEq, Repr

/-- `hir_def::lang_item::LangItemTarget` (only the `ImplDefId` arm matters to
`def_crates`; everything else is collapsed into `Other`). -/
inductive LangItemTarget
  | ImplDefId (i : ImplId)
  | Other
deriving DecidableEq, Repr

/-- A substitution (`crate::Substs`): a list of types indexed by bound-variable
position. -/
abbrev Substs := List Ty

/-- A trait obligation (`crate::Obligation::Trait(TraitRef)`), as handed to the
trait-satisfiability oracle by `generic_implements_goal`. -/
structure Obligation where
  trait_ : TraitId
  substs : Substs
deriving DecidableEq

/-- The ambient trait environment (`crate::TraitEnvironment`).  Modelled from
the spec: the only operation this file uses is
`trait_predicates_for_self_ty`, the traits bound on a placeholder self type. -/
structure TraitEnvironment where
  trait_predicates_for_self_ty : Ty → List TraitId

/-- The external store and collaborators (`dyn HirDatabase` plus the helpers
from other crates of this repository that are not under `src/`).  Each field
is the pure mathematical content of the corresponding query.

Fields marked "Modelled from the spec" stand for repository code outside
`src/`: `unify` (the external unifier, §6), `autoderef` (the external
autoderef step generator, §6), `all_super_traits` (`crate::utils`),
`trait_solve` (the opaque trait oracle, §6; the environment is ambient). -/
structure DB where
  /-- `db.function_data(f).name`. -/
  function_name : FunctionId → HirName
  /-- `db.function_data(f).has_self_param`. -/
  function_has_self_param : FunctionId → Bool
  /-- `f.lookup(db).container`. -/
  function_container : FunctionId → AssocContainerId
  /-- Number of generic parameters bound by `Substs::build_for_def(db, f)`
  (the function's own generics plus its parent's, `Self` first). -/
  function_generics_count : FunctionId → Nat
  /-- `db.callable_item_signature(f).value.params()`. -/
  callable_item_signature : FunctionId → List Ty
  /-- `db.const_data(c).name`. -/
  const_name : ConstId → Option HirName
  /-- `db.impl_data(i).items`. -/
  impl_items : ImplId → List AssocItemId
  /-- `db.impl_trait(i)`: the implemented trait of impl `i`, none if inherent. -/
  impl_trait : ImplId → Option TraitId
  /-- `db.impl_self_ty(i).value`: the declared self type of impl `i`, with the
  impl's own generic parameters as bound variables `0..n`. -/
  impl_self_ty : ImplId → Ty
  /-- Number of generic parameters of impl `i`
  (`Substs::build_for_def(db, i)`). -/
  impl_generics_count : ImplId → Nat
  /-- `it.lookup(db).container.module(db).krate` for a lang-item impl target. -/
  impl_container_krate : ImplId → CrateId
  /-- `def_id.module(db).krate`: the crate declaring an ADT. -/
  adt_krate : AdtId → CrateId
  /-- All impl blocks declared in the module tree of a crate
  (`crate_def_map(krate)` walked by `CrateImplDefs::fill`). -/
  crate_impls : CrateId → List ImplId
  /-- `crate_graph[krate].dependencies`. -/
  dependencies : CrateId → List CrateId
  /-- `db.lang_item(krate, name)`. -/
  lang_item : CrateId → String → Option LangItemTarget
  /-- `db.trait_data(t).items` (the item of each `(name, item)` pair). -/
  trait_items : TraitId → List AssocItemId
  /-- Number of generic parameters of trait `t` including `Self`
  (`Substs::build_for_def(db, t)`). -/
  trait_generics_count : TraitId → Nat
  /-- Modelled from the spec: `db.trait_solve(krate, goal).is_some()`, the
  opaque satisfiability oracle over obligations. -/
  trait_solve : CrateId → Canonical Obligation → Bool
  /-- Modelled from the spec: `crate::infer::unify`, the external unifier on
  canonical types. -/
  unify : Canonical Ty → Canonical Ty → Option Substs
  /-- Modelled from the spec: `crate::utils::all_super_traits`, a trait with
  all of its transitive supertraits. -/
  all_super_traits : TraitId → List TraitId
  /-- Modelled from the spec: `crate::autoderef::autoderef`, the external
  deref-coercion step generator; yields the base deref chain of a receiver. -/
  autoderef : CrateId → Canonical Ty → List (Canonical Ty)

/-! ### Association lists, sorting, dedup

`FxHashMap` buckets are modelled as association lists; `alistGet` is
first-match lookup and `alistUpdate d f m k` models
`m.entry(k).or_default()` (with default `d`) followed by an in-place
mutation `f` of the bucket.  Hash-map iteration order is abstracted as the
list order. -/

/-- First-match lookup in an association list (`FxHashMap::get`). -/
def alistGet {K V : Type} [DecidableEq K] : List (K × V) → K → Option V
  | [], _ => none
  | kv :: rest, k => if k = kv.1 then some kv.2 else alistGet rest k

/-- `m.entry(k).or_default()` (default `d`) followed by mutation `f` of the
bucket; a missing key is appended with `f d`. -/
def alistUpdate {K V : Type} [DecidableEq K] (d : V) (f : V → V) :
    List (K × V) → K → List (K × V)
  | [], k => [(k, f d)]
  | kv :: rest, k =>
    if k = kv.1 then (kv.1, f kv.2) :: rest else kv :: alistUpdate d f rest k

/-- Insertion into a sorted list of impl ids. -/
def insertSorted (x : Nat) : List Nat → List Nat
  | [] => [x]
  | y :: ys => if x ≤ y then x :: y :: ys else y :: insertSorted x ys

/-- `Vec::sort` on a bucket of impl ids (insertion sort). -/
def sortImpls (l : List Nat) : List Nat := l.foldr insertSorted []

/-- `Vec::dedup`: removes consecutive duplicate elements. -/
def dedupAdjacent : List Nat → List Nat
  | [] => []
  | [a] => [a]
  | a :: b :: rest =>
    if a = b then dedupAdjacent (b :: rest) else a :: dedupAdjacent (b :: rest)

/-! ### CrateImplDefs -/

/-- A queryable and mergeable collection of impls (`CrateImplDefs`). -/
structure CrateImplDefs where
  inherent_impls : List (TyFingerprint × List ImplId)
  impls_by_trait : List (TraitId × List (Option TyFingerprint × List ImplId))
deriving DecidableEq

/-- The empty `CrateImplDefs` (`FxHashMap::default()` twice). -/
def CrateImplDefs.empty : CrateImplDefs := ⟨[], []⟩

/-- One step of `CrateImplDefs::fill` for a single impl block: a trait impl is
recorded under `(trait, fingerprint-of-self-type)` (the fingerprint may be
none); an inherent impl is recorded under its self type's fingerprint only if
that fingerprint exists. -/
def CrateImplDefs.fillImpl (db : DB) (res : CrateImplDefs) (impl_id : ImplId) :
    CrateImplDefs :=
  match db.impl_trait impl_id with
  | some tr =>
    let self_ty_fp := TyFingerprint.for_impl (db.impl_self_ty impl_id)
    { res with impls_by_trait :=
        (alistUpdate []
          (fun m => alistUpdate [] (fun v => v ++ [impl_id]) m self_ty_fp)
          res.impls_by_trait tr) }
  | none =>
    match TyFingerprint.for_impl (db.impl_self_ty impl_id) with
    | some self_ty_fp =>
      { res with inherent_impls :=
          alistUpdate [] (fun v => v ++ [impl_id]) res.inherent_impls self_ty_fp }
    | none => res

/-- `CrateImplDefs::impls_in_crate_query`: build the crate's own index by
filling from every impl block declared in its module tree. -/
def impls_in_crate_query (db : DB) (krate : CrateId) : CrateImplDefs :=
  (db.crate_impls krate).foldl (CrateImplDefs.fillImpl db) CrateImplDefs.empty

/-- The bucket-map half of `CrateImplDefs::merge`: for every key of `other`,
append its impl ids into the corresponding bucket of `a`, then sort and
dedup that bucket. -/
def mergeBuckets {K : Type} [DecidableEq K]
    (a other : List (K × List ImplId)) : List (K × List ImplId) :=
  other.foldl
    (fun acc kv =>
      alistUpdate [] (fun v => dedupAdjacent (sortImpls (v ++ kv.2))) acc kv.1)
    a

/-- `CrateImplDefs::merge`. -/
def CrateImplDefs.merge (self other : CrateImplDefs) : CrateImplDefs :=
  { inherent_impls := mergeBuckets self.inherent_impls other.inherent_impls
    impls_by_trait :=
      other.impls_by_trait.foldl
        (fun acc tm => alistUpdate [] (fun m => mergeBuckets m tm.2) acc tm.1)
        self.impls_by_trait }

/-- `CrateImplDefs::lookup_impl_defs`: the inherent bucket of the type's
fingerprint (empty when the fingerprint or the bucket is absent). -/
def CrateImplDefs.lookup_impl_defs (self : CrateImplDefs) (ty : Ty) :
    List ImplId :=
  match TyFingerprint.for_impl ty with
  | none => []
  | some f => (alistGet self.inherent_impls f).getD []

/-- `CrateImplDefs::impls_from_deps_query`: for each dependency, merge that
dependency's own `impls_from_deps` and then its own `impls_in_crate`.  The
memoized recursive query is modelled with an explicit fuel parameter (the
crate graph is acyclic, so any fuel at least its depth is exact). -/
def impls_from_deps_query (db : DB) : Nat → CrateId → CrateImplDefs
  | 0, _ => CrateImplDefs.empty
  | fuel + 1, krate =>
    (db.dependencies krate).foldl
      (fun res dep =>
        (res.merge (impls_from_deps_query db fuel dep)).merge
          (impls_in_crate_query db dep))
      CrateImplDefs.empty

/-! ### def_crates -/

/-- The `lang_item_crate!` macro body: collect the lang-item targets of the
given names (each `db.lang_item` yields at most one target). -/
def lang_item_crate (db : DB) (cur_crate : CrateId) (names : List String) :
    List LangItemTarget :=
  names.foldl (fun v n => v ++ (db.lang_item cur_crate n).toList) []

/-- Tail of `Ty::def_crates`: keep `ImplDefId` targets and map each to the
crate of its containing module. -/
def langTargetsToCrates (db : DB) (ts : List LangItemTarget) : List CrateId :=
  (ts.filterMap fun t =>
    match t with
    | .ImplDefId i => some i
    | .Other => none).map db.impl_container_krate

/-- `Ty::def_crates`: the crates in which a type's inherent impls may live. -/
def Ty.def_crates (ty : Ty) (db : DB) (cur_crate : CrateId) :
    Option (List CrateId) :=
  match ty with
  | .Apply ctor _ =>
    match ctor with
    | .Adt def_id => some [db.adt_krate def_id]
    | .Bool => some (langTargetsToCrates db (lang_item_crate db cur_crate ["bool"]))
    | .Char => some (langTargetsToCrates db (lang_item_crate db cur_crate ["char"]))
    | .Float .X32 =>
      some (langTargetsToCrates db (lang_item_crate db cur_crate ["f32", "f32_runtime"]))
    | .Float .X64 =>
      some (langTargetsToCrates db (lang_item_crate db cur_crate ["f64", "f64_runtime"]))
    | .Int i =>
      some (langTargetsToCrates db (lang_item_crate db cur_crate [i.ty_to_string]))
    | .Str =>
      some (langTargetsToCrates db (lang_item_crate db cur_crate ["str_alloc", "str"]))
    | .Slice =>
      some (langTargetsToCrates db (lang_item_crate db cur_crate ["slice_alloc", "slice"]))
    | .RawPtr .Shared =>
      some (langTargetsToCrates db (lang_item_crate db cur_crate ["const_ptr"]))
    | .RawPtr .Mut =>
      some (langTargetsToCrates db (lang_item_crate db cur_crate ["mut_ptr"]))
    | _ => none
  | _ => none

/-! ### Substitution helpers -/

mutual

/-- `subst_bound_vars`: replace `Ty::Bound i` by the `i`-th entry of the
substitution.  An index beyond the substitution is left in place (such an
index cannot occur for the inputs the source builds). -/
def Ty.subst_bound_vars (substs : Substs) : Ty → Ty
  | .Apply ctor params => .Apply ctor (Ty.substList substs params)
  | .Bound idx => substs.getD idx (Ty.Bound idx)
  | t => t

/-- `subst_bound_vars` mapped over a parameter list. -/
def Ty.substList (substs : Substs) : List Ty → List Ty
  | [] => []
  | t :: ts => Ty.subst_bound_vars substs t :: Ty.substList substs ts

end

mutual

/-- `fallback_bound_vars` on one type: any bound variable with index at least
`num_vars_to_keep` becomes `Ty::Unknown` (the source also checks
`bound.debruijn >= binders`, which always holds here since the model carries
no binders). -/
def Ty.fallbackBv (num_vars_to_keep : Nat) : Ty → Ty
  | .Apply ctor params => .Apply ctor (Ty.fallbackBvList num_vars_to_keep params)
  | .Bound idx => if num_vars_to_keep ≤ idx then .Unknown else .Bound idx
  | t => t

/-- `fallbackBv` mapped over a parameter list. -/
def Ty.fallbackBvList (num_vars_to_keep : Nat) : List Ty → List Ty
  | [] => []
  | t :: ts => Ty.fallbackBv num_vars_to_keep t :: Ty.fallbackBvList num_vars_to_keep ts

end

/-- `fallback_bound_vars`: replaces free bound variables (indices past
`num_vars_to_keep`) of every type of the substitution by `Ty::Unknown`. -/
def fallback_bound_vars (s : Substs) (num_vars_to_keep : Nat) : Substs :=
  Ty.fallbackBvList num_vars_to_keep s

/-- `Substs::suffix(n)`: the last `n` entries. -/
def Substs.suffix (s : Substs) (n : Nat) : Substs := s.drop (s.length - n)

/-- `inherent_impl_substs`: create a variable for each type parameter of the
impl (indices offset past `self_ty`'s own vars), substitute them into the
impl's declared self type, unify against `self_ty`, keep only the suffix for
the added vars and fall back leftover vars to `Ty::Unknown`. -/
def inherent_impl_substs (db : DB) (impl_id : ImplId) (self_ty : Canonical Ty) :
    Option Substs :=
  let vars : Substs :=
    (List.range (db.impl_generics_count impl_id)).map
      (fun i => Ty.Bound (self_ty.num_vars + i))
  let self_ty_with_vars : Canonical Ty :=
    ⟨vars.length + self_ty.num_vars, Ty.subst_bound_vars vars (db.impl_self_ty impl_id)⟩
  (db.unify self_ty_with_vars self_ty).map
    (fun s => fallback_bound_vars (Substs.suffix s vars.length) self_ty.num_vars)

/-- `transform_receiver_ty`: for a trait function, substitute `Self := self_ty`
and every other generic of the function's `build_for_def` by `Unknown`; for an
inherent-impl function, reuse `inherent_impl_substs`; then substitute into the
first parameter of the function's signature.  In the source
`sig.value.params()[0]` panics when the signature is empty — callers only call
this after checking `has_self_param` — here the indexing is `head?`.  The
`ContainerId` arm is `unreachable!()` in the source and is modelled as none. -/
def transform_receiver_ty (db : DB) (function_id : FunctionId)
    (self_ty : Canonical Ty) : Option Ty :=
  match db.function_container function_id with
  | .TraitId _ =>
    let substs : Substs :=
      self_ty.value ::
        List.replicate (db.function_generics_count function_id - 1) Ty.Unknown
    ((db.callable_item_signature function_id).head?).map (Ty.subst_bound_vars substs)
  | .ImplId impl_id =>
    match inherent_impl_substs db impl_id self_ty with
    | none => none
    | some substs =>
      ((db.callable_item_signature function_id).head?).map (Ty.subst_bound_vars substs)
  | .ContainerId _ => none

/-- `generic_implements_goal`: Substs for the trait with the given self type
and fresh variables for all other parameters.  The ambient environment of the
source's `InEnvironment` wrapper is left implicit in `DB.trait_solve`. -/
def generic_implements_goal (db : DB) (trait_ : TraitId) (self_ty : Canonical Ty) :
    Canonical Obligation :=
  let num_vars := self_ty.num_vars
  let substs : Substs :=
    self_ty.value ::
      (List.range (db.trait_generics_count trait_ - 1)).map
        (fun i => Ty.Bound (num_vars + i))
  ⟨substs.length - 1 + self_ty.num_vars, ⟨trait_, substs⟩⟩

/-- `is_valid_candidate`: the name / self-parameter / receiver-type filters on
one associated item. -/
def is_valid_candidate (db : DB) (name : Option HirName)
    (receiver_ty : Option (Canonical Ty)) (item : AssocItemId)
    (self_ty : Canonical Ty) : Bool :=
  match item with
  | .FunctionId m =>
    let nameOk : Bool :=
      match name with
      | some n => db.function_name m == n
      | none => true
    if !nameOk then false
    else
      match receiver_ty with
      | some receiver_ty =>
        if !db.function_has_self_param m then false
        else
          match transform_receiver_ty db m self_ty with
          | none => false
          | some transformed_receiver_ty =>
            decide (transformed_receiver_ty = receiver_ty.value)
      | none => true
  | .ConstId c =>
    (match name with
      | some n => db.const_name c == some n
      | none => true) && receiver_ty.isNone
  | .TypeAliasId _ => false

/-! ### The candidate search

Each search function is embedded with its control flow intact (early return
when the callback answers `true`) and instrumented: `log` records the
callback invocations `(self_ty.value, item)` in order, `queries` records each
oracle call of a trait scan, `consulted` records each impl block iterated by
an inherent scan, and `scanned` records the self types visited by a walk.
The logs are tagged on the way up with the position in each enclosing loop:
`T1` adds the self-type walk index, `T2` the phase (0 inherent, 1 trait),
`T3` the receiver variant (0 by-value, 1 shared autoref, 2 mutable autoref)
and `T4` the deref-chain level. -/

/-- The search callback
(`&mut dyn FnMut(&Ty, AssocItemId) -> bool`). -/
abbrev Cb := Ty → AssocItemId → Bool

/-- One callback invocation: the self type's value and the accepted item. -/
abbrev Ev := Ty × AssocItemId

/-- An invocation tagged with its self-type walk index. -/
abbrev T1 := Nat × Ev

/-- A `T1` invocation tagged with its phase (0 inherent, 1 trait). -/
abbrev T2 := Nat × T1

/-- A `T2` invocation tagged with its receiver variant (0 value, 1 `&`, 2 `&mut`). -/
abbrev T3 := Nat × T2

/-- A `T3` invocation tagged with its deref-chain level. -/
abbrev T4 := Nat × T3

/-- The payload invocation of a fully tagged log entry. -/
def evOf (e : T4) : Ev := e.2.2.2.2

/-- Result of a trait-candidate scan: whether the callback stopped the search,
the invocations made, and one entry per trait-oracle query issued. -/
structure TraitRun where
  found : Bool
  log : List Ev
  queries : List TraitId
deriving DecidableEq

/-- The inner item loop of `iterate_trait_method_candidates` for one trait
`t`, with the `known_implemented` flag threaded through.  An oracle rejection
is `continue 'traits`: the rest of `t`'s items are abandoned. -/
def traitItemsLoop (db : DB) (krate : CrateId) (name : Option HirName)
    (receiver_ty : Option (Canonical Ty)) (self_ty : Canonical Ty) (cb : Cb)
    (t : TraitId) : List AssocItemId → Bool → TraitRun
  | [], _ => ⟨false, [], []⟩
  | item :: items, known_implemented =>
    if !is_valid_candidate db name receiver_ty item self_ty then
      traitItemsLoop db krate name receiver_ty self_ty cb t items known_implemented
    else if !known_implemented then
      if db.trait_solve krate (generic_implements_goal db t self_ty) then
        if cb self_ty.value item then ⟨true, [(self_ty.value, item)], [t]⟩
        else
          let r := traitItemsLoop db krate name receiver_ty self_ty cb t items true
          ⟨r.found, (self_ty.value, item) :: r.log, t :: r.queries⟩
      else ⟨false, [], [t]⟩
    else
      if cb self_ty.value item then ⟨true, [(self_ty.value, item)], []⟩
      else
        let r := traitItemsLoop db krate name receiver_ty self_ty cb t items true
        ⟨r.found, (self_ty.value, item) :: r.log, r.queries⟩

/-- The outer `'traits` loop of `iterate_trait_method_candidates`. -/
def traitsLoop (db : DB) (krate : CrateId) (name : Option HirName)
    (receiver_ty : Option (Canonical Ty)) (self_ty : Canonical Ty) (cb : Cb) :
    List TraitId → TraitRun
  | [] => ⟨false, [], []⟩
  | t :: ts =>
    let r := traitItemsLoop db krate name receiver_ty self_ty cb t
      (db.trait_items t) false
    if r.found then r
    else
      let rest := traitsLoop db krate name receiver_ty self_ty cb ts
      ⟨rest.found, r.log ++ rest.log, r.queries ++ rest.queries⟩

/-- The trait universe scanned at a self type: the `dyn`-trait's supertraits,
then (for a placeholder self type) the supertraits of the environment bounds,
then the traits in lexical scope.  `traits_in_scope` is an `FxHashSet` in the
source; its unspecified iteration order is abstracted as a list. -/
def traitsUniverse (db : DB) (env : TraitEnvironment) (self_ty : Canonical Ty)
    (traits_in_scope : List TraitId) : List TraitId :=
  let inherent_trait :=
    (Ty.dyn_trait self_ty.value).toList.flatMap db.all_super_traits
  let env_traits :=
    match self_ty.value with
    | .Placeholder _ =>
      (env.trait_predicates_for_self_ty self_ty.value).flatMap db.all_super_traits
    | _ => []
  inherent_trait ++ env_traits ++ traits_in_scope

/-- `iterate_trait_method_candidates`. -/
def iterate_trait_method_candidates (db : DB) (env : TraitEnvironment)
    (self_ty : Canonical Ty) (krate : CrateId) (traits_in_scope : List TraitId)
    (name : Option HirName) (receiver_ty : Option (Canonical Ty)) (cb : Cb) :
    TraitRun :=
  traitsLoop db krate name receiver_ty self_ty cb
    (traitsUniverse db env self_ty traits_in_scope)

/-- Result of a leaf scan: whether the callback stopped the search and the
invocations made. -/
structure ScanRun where
  found : Bool
  log : List Ev
deriving DecidableEq

/-- Result of an inherent scan: additionally, one entry per impl block
iterated (`for impl_def in impls.lookup_impl_defs(..)`). -/
structure InherentRun where
  found : Bool
  log : List Ev
  consulted : List ImplId
deriving DecidableEq

/-- The item loop of `iterate_inherent_methods` for one impl block: the
validity filter, then — only in Path mode (`receiver_ty.is_none()`) — the
`inherent_impl_substs` applicability check, then the callback. -/
def inherentItemsLoop (db : DB) (name : Option HirName)
    (receiver_ty : Option (Canonical Ty)) (self_ty : Canonical Ty)
    (impl_def : ImplId) (cb : Cb) : List AssocItemId → ScanRun
  | [] => ⟨false, []⟩
  | item :: items =>
    if !is_valid_candidate db name receiver_ty item self_ty then
      inherentItemsLoop db name receiver_ty self_ty impl_def cb items
    else if receiver_ty.isNone && (inherent_impl_substs db impl_def self_ty).isNone then
      inherentItemsLoop db name receiver_ty self_ty impl_def cb items
    else if cb self_ty.value item then ⟨true, [(self_ty.value, item)]⟩
    else
      let r := inherentItemsLoop db name receiver_ty self_ty impl_def cb items
      ⟨r.found, (self_ty.value, item) :: r.log⟩

/-- The impl loop of `iterate_inherent_methods` over one crate's inherent
bucket. -/
def inherentImplsLoop (db : DB) (name : Option HirName)
    (receiver_ty : Option (Canonical Ty)) (self_ty : Canonical Ty) (cb : Cb) :
    List ImplId → InherentRun
  | [] => ⟨false, [], []⟩
  | impl_def :: impls =>
    let r := inherentItemsLoop db name receiver_ty self_ty impl_def cb
      (db.impl_items impl_def)
    if r.found then ⟨true, r.log, [impl_def]⟩
    else
      let rest := inherentImplsLoop db name receiver_ty self_ty cb impls
      ⟨rest.found, r.log ++ rest.log, impl_def :: rest.consulted⟩

/-- The crate loop of `iterate_inherent_methods`, generalized over how the
impl index of a defining crate is fetched (`idx`).  The source fetches
`db.impls_in_crate(krate)`. -/
def inherentCratesLoopWith (idx : CrateId → CrateImplDefs) (db : DB)
    (name : Option HirName) (receiver_ty : Option (Canonical Ty))
    (self_ty : Canonical Ty) (cb : Cb) : List CrateId → InherentRun
  | [] => ⟨false, [], []⟩
  | krate :: ks =>
    let impls := idx krate
    let r := inherentImplsLoop db name receiver_ty self_ty cb
      (impls.lookup_impl_defs self_ty.value)
    if r.found then r
    else
      let rest := inherentCratesLoopWith idx db name receiver_ty self_ty cb ks
      ⟨rest.found, r.log ++ rest.log, r.consulted ++ rest.consulted⟩

/-- `iterate_inherent_methods`: for each defining crate of the self type,
iterate its own index's (`db.impls_in_crate`) inherent bucket. -/
def iterate_inherent_methods (db : DB) (self_ty : Canonical Ty)
    (name : Option HirName) (receiver_ty : Option (Canonical Ty))
    (krate : CrateId) (cb : Cb) : InherentRun :=
  match Ty.def_crates self_ty.value db krate with
  | none => ⟨false, [], []⟩
  | some def_cs =>
    inherentCratesLoopWith (impls_in_crate_query db) db name receiver_ty
      self_ty cb def_cs

/-- Modelled from the spec: the inherent scan as §4.5 of the spec literally
describes it — "for each defining crate, fetch its (own + transitive)
ImplIndex inherent bucket", the transitive-dependency index (missing from the
source's scan) merged with the crate's own index.  `fuel` drives the
recursive dependency walk. -/
def iterate_inherent_methods_specIndex (db : DB) (fuel : Nat)
    (self_ty : Canonical Ty) (name : Option HirName)
    (receiver_ty : Option (Canonical Ty)) (krate : CrateId) (cb : Cb) :
    InherentRun :=
  match Ty.def_crates self_ty.value db krate with
  | none => ⟨false, [], []⟩
  | some def_cs =>
    inherentCratesLoopWith
      (fun k => (impls_from_deps_query db fuel k).merge (impls_in_crate_query db k))
      db name receiver_ty self_ty cb def_cs

/-- Result of one self-type walk: invocations tagged by walk index, plus the
self types visited (one entry per loop iteration actually executed). -/
structure WalkRun where
  found : Bool
  log : List T1
  scanned : List Ty
deriving DecidableEq

/-- `for self_ty in once(receiver_ty).chain(rest_of_deref_chain)` over a walk
list, running `scan` at each self type until one scan reports `true`. -/
def walkLoop (scan : Canonical Ty → ScanRun) :
    Nat → List (Canonical Ty) → WalkRun
  | _, [] => ⟨false, [], []⟩
  | k, s :: ss =>
    let r := scan s
    let seg := r.log.map (fun e => (k, e))
    if r.found then ⟨true, seg, [s.value]⟩
    else
      let rest := walkLoop scan (k + 1) ss
      ⟨rest.found, seg ++ rest.log, s.value :: rest.scanned⟩

/-- Result of `iterate_method_candidates_by_receiver`: invocations tagged by
(phase, walk index), plus all self types visited (inherent pass first). -/
structure ByReceiverRun where
  found : Bool
  log : List T2
  scanned : List Ty
deriving DecidableEq

/-- The body of `iterate_method_candidates_by_receiver`, generalized over the
walked self-type list: an inherent pass over the whole walk, then — only if
it did not stop the search — a trait pass over the same walk. -/
def by_receiver_with_walk (db : DB) (env : TraitEnvironment) (krate : CrateId)
    (traits_in_scope : List TraitId) (name : Option HirName)
    (receiver_ty : Canonical Ty) (walk : List (Canonical Ty)) (cb : Cb) :
    ByReceiverRun :=
  let ri := walkLoop
    (fun self_ty =>
      let r := iterate_inherent_methods db self_ty name (some receiver_ty) krate cb
      ⟨r.found, r.log⟩) 0 walk
  if ri.found then ⟨true, ri.log.map (fun e => (0, e)), ri.scanned⟩
  else
    let rt := walkLoop
      (fun self_ty =>
        let r := iterate_trait_method_candidates db env self_ty krate
          traits_in_scope name (some receiver_ty) cb
        ⟨r.found, r.log⟩) 0 walk
    ⟨rt.found, ri.log.map (fun e => (0, e)) ++ rt.log.map (fun e => (1, e)),
      ri.scanned ++ rt.scanned⟩

/-- `iterate_method_candidates_by_receiver`: the walked self types are
`std::iter::once(receiver_ty).chain(rest_of_deref_chain)`. -/
def iterate_method_candidates_by_receiver (db : DB) (env : TraitEnvironment)
    (krate : CrateId) (traits_in_scope : List TraitId) (name : Option HirName)
    (receiver_ty : Canonical Ty) (rest_of_deref_chain : List (Canonical Ty))
    (cb : Cb) : ByReceiverRun :=
  by_receiver_with_walk db env krate traits_in_scope name receiver_ty
    (receiver_ty :: rest_of_deref_chain) cb

/-- The shared-autoref receiver built by `iterate_method_candidates_with_autoref`. -/
def refedShared (b : Canonical Ty) : Canonical Ty :=
  ⟨b.num_vars, Ty.apply_one (.Ref .Shared) b.value⟩

/-- The mutable-autoref receiver built by `iterate_method_candidates_with_autoref`. -/
def refedMut (b : Canonical Ty) : Canonical Ty :=
  ⟨b.num_vars, Ty.apply_one (.Ref .Mut) b.value⟩

/-- Result of `iterate_method_candidates_with_autoref`: invocations tagged by
(variant, phase, walk index), plus the per-variant visited self types. -/
structure AutorefRun where
  found : Bool
  log : List T3
  variantScans : List (List Ty)
deriving DecidableEq

/-- `iterate_method_candidates_with_autoref` on the nonempty deref-chain
suffix `b :: rest`: by-value receiver `b` over walk `b :: rest`, then
receiver `&b` over walk `&b :: b :: rest`, then receiver `&mut b` over walk
`&mut b :: b :: rest` (each `by_receiver` call receives the full suffix
`b :: rest` as `rest_of_deref_chain`). -/
def iterate_method_candidates_with_autoref (db : DB) (env : TraitEnvironment)
    (krate : CrateId) (traits_in_scope : List TraitId) (name : Option HirName)
    (b : Canonical Ty) (rest : List (Canonical Ty)) (cb : Cb) : AutorefRun :=
  let r0 := iterate_method_candidates_by_receiver db env krate traits_in_scope
    name b rest cb
  let l0 := r0.log.map (fun e => ((0 : Nat), e))
  if r0.found then ⟨true, l0, [r0.scanned]⟩
  else
    let r1 := iterate_method_candidates_by_receiver db env krate traits_in_scope
      name (refedShared b) (b :: rest) cb
    let l1 := r1.log.map (fun e => ((1 : Nat), e))
    if r1.found then ⟨true, l0 ++ l1, [r0.scanned, r1.scanned]⟩
    else
      let r2 := iterate_method_candidates_by_receiver db env krate traits_in_scope
        name (refedMut b) (b :: rest) cb
      let l2 := r2.log.map (fun e => ((2 : Nat), e))
      ⟨r2.found, l0 ++ l1 ++ l2, [r0.scanned, r1.scanned, r2.scanned]⟩

/-- Result of the full search: invocations tagged by
(level, variant, phase, walk index). -/
structure Run where
  found : Bool
  log : List T4
deriving DecidableEq

/-- `for i in 0..deref_chain.len() { iterate_method_candidates_with_autoref(
&deref_chain[i..], ..) }`: each nonempty suffix of the deref chain in order,
tagged with its level `i`. -/
def methodCallLoop (db : DB) (env : TraitEnvironment) (krate : CrateId)
    (traits_in_scope : List TraitId) (name : Option HirName) (cb : Cb) :
    Nat → List (Canonical Ty) → Run
  | _, [] => ⟨false, []⟩
  | i, b :: rest =>
    let r := iterate_method_candidates_with_autoref db env krate traits_in_scope
      name b rest cb
    let seg := r.log.map (fun e => (i, e))
    if r.found then ⟨true, seg⟩
    else
      let rest' := methodCallLoop db env krate traits_in_scope name cb (i + 1) rest
      ⟨rest'.found, seg ++ rest'.log⟩

/-- `autoderef_method_receiver`: the external autoderef chain, plus — as a
last step, only when the chain's last element is an array — one array→slice
unsizing entry with the same parameters and `num_vars`. -/
def autoderef_method_receiver (db : DB) (krate : CrateId)
    (ty : Canonical Ty) : List (Canonical Ty) :=
  let deref_chain := db.autoderef krate ty
  match deref_chain.getLast? with
  | some ⟨n, Ty.Apply .Array parameters⟩ =>
    deref_chain ++ [⟨n, Ty.Apply .Slice parameters⟩]
  | _ => deref_chain

/-- `iterate_method_candidates_for_self_ty` (Path mode): one self type, the
inherent scan then the trait scan, both with `receiver_ty = None`. -/
def iterate_method_candidates_for_self_ty (db : DB) (env : TraitEnvironment)
    (krate : CrateId) (traits_in_scope : List TraitId) (name : Option HirName)
    (self_ty : Canonical Ty) (cb : Cb) : ByReceiverRun :=
  let ri := iterate_inherent_methods db self_ty name none krate cb
  if ri.found then ⟨true, ri.log.map (fun e => (0, (0, e))), [self_ty.value]⟩
  else
    let rt := iterate_trait_method_candidates db env self_ty krate
      traits_in_scope name none cb
    ⟨rt.found,
      ri.log.map (fun e => (0, (0, e))) ++ rt.log.map (fun e => (1, (0, e))),
      [self_ty.value]⟩

/-- `LookupMode`. -/
inductive LookupMode
  | MethodCall
  | Path
deriving DecidableEq, Repr

/-- `iterate_method_candidates_impl`. -/
def iterate_method_candidates_impl (db : DB) (env : TraitEnvironment)
    (krate : CrateId) (traits_in_scope : List TraitId) (name : Option HirName)
    (mode : LookupMode) (ty : Canonical Ty) (cb : Cb) : Run :=
  match mode with
  | .MethodCall =>
    methodCallLoop db env krate traits_in_scope name cb 0
      (autoderef_method_receiver db krate ty)
  | .Path =>
    let r := iterate_method_candidates_for_self_ty db env krate traits_in_scope
      name ty cb
    ⟨r.found, r.log.map (fun e => (0, (0, e)))⟩

/-- `iterate_method_candidates`, the single-result wrapper: it drives the
search with the closure `|ty, item| { assert!(slot.is_none()); slot =
callback(ty, item); slot.is_some() }`.  Since `slot` is overwritten on every
invocation, its final value is the user callback applied to the last
invocation of the log (none when there was none). -/
def iterate_method_candidates {T : Type} (db : DB) (env : TraitEnvironment)
    (krate : CrateId) (traits_in_scope : List TraitId) (name : Option HirName)
    (mode : LookupMode) (ty : Canonical Ty)
    (callback : Ty → AssocItemId → Option T) : Option T :=
  let r := iterate_method_candidates_impl db env krate traits_in_scope name
    mode ty (fun t item => (callback t item).isSome)
  match r.log.getLast? with
  | none => none
  | some e => callback (evOf e).1 (evOf e).2

/-! ### A small concrete database

Used as the concrete input of witnesses and counterexamples.  Crate 1 depends
on crate 0; crate 0 declares the inherent impl 10 on `Adt 5` (whose declaring
crate is crate 1) with one const item, and the inherent impl 12 on `Adt 6`
(declared in crate 0) with two const items; impl 11 is an applicable inherent
impl on `bool` containing function 7, which has no self parameter but one
ordinary `char` parameter; trait 3 has one const item and every oracle query
succeeds. -/

/-- Concrete database for witnesses and counterexamples. -/
def dbEx : DB where
  function_name := fun _ => 0
  function_has_self_param := fun _ => false
  function_container := fun f => if f = 7 then .ImplId 11 else .TraitId 3
  function_generics_count := fun _ => 1
  callable_item_signature := fun f => if f = 7 then [Ty.Apply .Char []] else []
  const_name := fun _ => none
  impl_items := fun i =>
    if i = 10 then [.ConstId 1] else if i = 12 then [.ConstId 1, .ConstId 2] else []
  impl_trait := fun _ => none
  impl_self_ty := fun i =>
    if i = 10 then .Apply (.Adt 5) []
    else if i = 11 then .Apply .Bool []
    else if i = 12 then .Apply (.Adt 6) []
    else .Unknown
  impl_generics_count := fun _ => 0
  impl_container_krate := fun _ => 0
  adt_krate := fun a => if a = 5 then 1 else 0
  crate_impls := fun k => if k = 0 then [10, 12] else []
  dependencies := fun k => if k = 1 then [0] else []
  lang_item := fun _ _ => none
  trait_items := fun t => if t = 3 then [.ConstId 9] else []
  trait_generics_count := fun _ => 1
  trait_solve := fun _ _ => true
  unify := fun a b => if a.value = b.value then some [] else none
  all_super_traits := fun t => [t]
  autoderef := fun _ c => [c]

/-- An empty ambient environment. -/
def envEx : TraitEnvironment := ⟨fun _ => []⟩

/-! ### C2 — TyFingerprint::for_impl -/

/-- C2 (counterexample): the claim says `for_impl` returns none for reference
types and tuples; the source returns a fingerprint for every `Ty::Apply`,
including `&bool` and `(bool, char)`. -/
theorem claim_C2_counterexample :
    TyFingerprint.for_impl (Ty.Apply (.Ref .Shared) [Ty.Apply .Bool []]) ≠ none ∧
    TyFingerprint.for_impl (Ty.Apply (.Tuple 2) [Ty.Apply .Bool [], Ty.Apply .Char []]) ≠
      none := by
  decide

/-- C2 (amended): `TyFingerprint::for_impl` returns a fingerprint iff the
type's outer shape is an applied constructor — any `TypeCtor`, references,
tuples, arrays and the rest included — and none exactly for placeholders,
bound variables, `dyn` types and the unknown type. -/
theorem claim_C2_amended (ty : Ty) :
    (TyFingerprint.for_impl ty).isSome ↔ ∃ c ps, ty = Ty.Apply c ps := by
  cases ty <;> simp [TyFingerprint.for_impl]

/-! ### C7 — autoderef_method_receiver -/

/-- Whether a type is a fixed-length array constructor application. -/
def isArrayTy : Ty → Bool
  | .Apply .Array _ => true
  | _ => false

/-- C7: the method-receiver deref chain is the external autoderef sequence
with exactly one extra entry appended iff the chain's last element is an
array constructor; the appended entry is a slice with the same parameters and
the same hole count, and nothing else is ever appended. -/
theorem claim_C7 (db : DB) (krate : CrateId) (ty : Canonical Ty) :
    (∀ n ps, (db.autoderef krate ty).getLast? = some ⟨n, Ty.Apply .Array ps⟩ →
      autoderef_method_receiver db krate ty =
        db.autoderef krate ty ++ [⟨n, Ty.Apply .Slice ps⟩]) ∧
    ((((db.autoderef krate ty).getLast?.map fun c => isArrayTy c.value).getD false
        = false) →
      autoderef_method_receiver db krate ty = db.autoderef krate ty) := by
  constructor
  · intro n ps h
    simp [autoderef_method_receiver, h]
  · intro h
    cases hl : (db.autoderef krate ty).getLast? with
    | none => simp [autoderef_method_receiver, hl]
    | some c =>
      rw [hl] at h
      simp only [Option.map_some', Option.getD_some] at h
      obtain ⟨n, v⟩ := c
      cases v with
      | Apply ctor params =>
        cases ctor <;> simp_all [isArrayTy, autoderef_method_receiver, hl]
      | Placeholder _ => simp [autoderef_method_receiver, hl]
      | Bound _ => simp [autoderef_method_receiver, hl]
      | Dyn _ => simp [autoderef_method_receiver, hl]
      | Unknown => simp [autoderef_method_receiver, hl]

/-- C7 (witness): an array-ending chain gets exactly the slice entry appended;
a non-array chain is returned unchanged. -/
theorem claim_C7_witness :
    autoderef_method_receiver dbEx 0 ⟨0, Ty.Apply .Array [Ty.Apply .Bool []]⟩ =
      [⟨0, Ty.Apply .Array [Ty.Apply .Bool []]⟩,
        ⟨0, Ty.Apply .Slice [Ty.Apply .Bool []]⟩] ∧
    autoderef_method_receiver dbEx 0 ⟨0, Ty.Apply .Bool []⟩ =
      [⟨0, Ty.Apply .Bool []⟩] := by
  constructor
  · exact (claim_C7 dbEx 0 _).1 0 [Ty.Apply .Bool []] (by decide)
  · exact (claim_C7 dbEx 0 _).2 (by decide)

/-! ### C8 — is_valid_candidate and the two lookup modes -/

/-- C8: with `receiver_ty = None` a constant is eligible iff its name passes
and a function is eligible iff its name passes — no self-parameter or
receiver-type check at all, so a function without a self parameter can
succeed; with a receiver given, a constant is never eligible and a function
without a self parameter is never eligible. -/
theorem claim_C8 (db : DB) (name : Option HirName) (self_ty : Canonical Ty) :
    (∀ c : ConstId, is_valid_candidate db name none (.ConstId c) self_ty =
      (match name with
        | some n => db.const_name c == some n
        | none => true)) ∧
    (∀ f : FunctionId, is_valid_candidate db name none (.FunctionId f) self_ty =
      (match name with
        | some n => db.function_name f == n
        | none => true)) ∧
    (∀ (r : Canonical Ty) (c : ConstId),
      is_valid_candidate db name (some r) (.ConstId c) self_ty = false) ∧
    (∀ (r : Canonical Ty) (f : FunctionId),
      db.function_has_self_param f = false →
      is_valid_candidate db name (some r) (.FunctionId f) self_ty = false) := by
  refine ⟨fun c => ?_, fun f => ?_, fun r c => ?_, fun r f h => ?_⟩
  · cases name <;> simp [is_valid_candidate]
  · cases name with
    | none => simp [is_valid_candidate]
    | some n => cases hn : db.function_name f == n <;> simp [is_valid_candidate, hn]
  · cases name <;> simp [is_valid_candidate]
  · cases name with
    | none => simp [is_valid_candidate, h]
    | some n => cases hn : db.function_name f == n <;> simp [is_valid_candidate, hn, h]

/-- C8 (witness): a method-call-mode lookup filter on the self-parameter-less
function 42 rejects it. -/
theorem claim_C8_witness :
    is_valid_candidate dbEx none (some ⟨0, Ty.Apply .Bool []⟩) (.FunctionId 42)
      ⟨0, Ty.Apply .Bool []⟩ = false :=
  (claim_C8 dbEx none _).2.2.2 _ 42 rfl

/-! ### C9 — transform_receiver_ty -/

/-- C9 (counterexample): the claim says `transform_receiver_ty` returns none
whenever the function has no self parameter; function 7 has no self parameter
(but one ordinary parameter), sits in the applicable inherent impl 11, and
`transform_receiver_ty` returns some: the source never consults
`has_self_param`, it substitutes into `sig.value.params()[0]` whatever that
first parameter is. -/
theorem claim_C9_counterexample :
    dbEx.function_has_self_param 7 = false ∧
    transform_receiver_ty dbEx 7 ⟨0, Ty.Apply .Bool []⟩ =
      some (Ty.Apply .Char []) := by
  decide

/-- C9 (amended): `transform_receiver_ty` returns none iff the containing
inherent impl does not apply (`inherent_impl_substs` fails) or the signature
has no first parameter (in the source that indexing panics; callers guard by
checking `has_self_param` beforehand); for a trait function only the empty
signature yields none.  No self-parameter check is performed. -/
theorem claim_C9_amended (db : DB) (f : FunctionId) (self_ty : Canonical Ty) :
    (∀ t, db.function_container f = .TraitId t →
      (transform_receiver_ty db f self_ty = none ↔
        db.callable_item_signature f = [])) ∧
    (∀ i, db.function_container f = .ImplId i →
      (transform_receiver_ty db f self_ty = none ↔
        (inherent_impl_substs db i self_ty = none ∨
          db.callable_item_signature f = []))) := by
  constructor
  · intro t h
    cases hs : db.callable_item_signature f <;>
      simp [transform_receiver_ty, h, hs]
  · intro i h
    cases hu : inherent_impl_substs db i self_ty <;>
      cases hs : db.callable_item_signature f <;>
        simp [transform_receiver_ty, h, hs, hu]

/-- C9 (witness): the amended none-condition instantiated at function 7 in
impl 11. -/
theorem claim_C9_witness :
    transform_receiver_ty dbEx 7 ⟨0, Ty.Apply .Bool []⟩ = none ↔
      (inherent_impl_substs dbEx 11 ⟨0, Ty.Apply .Bool []⟩ = none ∨
        dbEx.callable_item_signature 7 = []) :=
  (claim_C9_amended dbEx 7 ⟨0, Ty.Apply .Bool []⟩).2 11 rfl

/-! ### C6 — merge is idempotent and order-independent on bucket membership -/

theorem alistGet_update_self {K V : Type} [DecidableEq K] (d : V) (f : V → V)
    (m : List (K × V)) (k : K) :
    alistGet (alistUpdate d f m k) k = some (f ((alistGet m k).getD d)) := by
  induction m with
  | nil => simp [alistGet, alistUpdate]
  | cons kv rest ih =>
    by_cases h : k = kv.1
    · simp [alistGet, alistUpdate, h]
    · simp [alistGet, alistUpdate, h, ih]

theorem alistGet_update_other {K V : Type} [DecidableEq K] (d : V) (f : V → V)
    (m : List (K × V)) (k k' : K) (h : k' ≠ k) :
    alistGet (alistUpdate d f m k) k' = alistGet m k' := by
  induction m with
  | nil => simp [alistGet, alistUpdate, h]
  | cons kv rest ih =>
    by_cases hk : k = kv.1
    · subst hk
      simp [alistGet, alistUpdate, h]
    · simp only [alistUpdate, if_neg hk]
      by_cases hk' : k' = kv.1
      · simp [alistGet, hk']
      · simp [alistGet, hk', ih]

theorem mem_insertSorted (x y : Nat) (l : List Nat) :
    y ∈ insertSorted x l ↔ y ∈ x :: l := by
  induction l with
  | nil => simp [insertSorted]
  | cons a rest ih =>
    by_cases h : x ≤ a
    · simp [insertSorted, h]
    · simp only [insertSorted, if_neg h, List.mem_cons, ih]
      tauto

theorem mem_sortImpls (y : Nat) (l : List Nat) : y ∈ sortImpls l ↔ y ∈ l := by
  induction l with
  | nil => simp [sortImpls]
  | cons a rest ih =>
    simp only [sortImpls, List.foldr_cons] at ih ⊢
    rw [mem_insertSorted]
    simp [ih]

theorem mem_dedupAdjacent (y : Nat) :
    (l : List Nat) → (y ∈ dedupAdjacent l ↔ y ∈ l)
  | [] => by simp [dedupAdjacent]
  | [a] => by simp [dedupAdjacent]
  | a :: b :: rest => by
    by_cases h : a = b
    · subst h
      have hd : dedupAdjacent (a :: a :: rest) = dedupAdjacent (a :: rest) := by
        simp [dedupAdjacent]
      rw [hd, mem_dedupAdjacent y (a :: rest), List.mem_cons, List.mem_cons,
        List.mem_cons]
      tauto
    · simp only [dedupAdjacent, if_neg h, List.mem_cons,
        mem_dedupAdjacent y (b :: rest)]

/-- Membership in the bucket of a key (empty when the key is absent). -/
def bucketOf {K : Type} [DecidableEq K] (m : List (K × List ImplId)) (k : K) :
    List ImplId :=
  (alistGet m k).getD []

/-- A predicate on values through a fold of keyed updates distributes into the
accumulator part and an entry part. -/
theorem P_get_foldl_update {K W V : Type} [DecidableEq K] (d : V) (P : V → Prop)
    (hPd : ¬ P d) (F : (K × W) → V → V) (Q : (K × W) → Prop) :
    ∀ (l : List (K × W)),
      (∀ kv ∈ l, ∀ v : V, P (F kv v) ↔ P v ∨ Q kv) →
      ∀ (a : List (K × V)) (k : K),
        (P ((alistGet
              (l.foldl (fun acc kv => alistUpdate d (F kv) acc kv.1) a) k).getD d) ↔
          P ((alistGet a k).getD d) ∨ ∃ kv ∈ l, kv.1 = k ∧ Q kv)
  | [], _, a, k => by simp
  | kv :: rest, hF, a, k => by
    rw [List.foldl_cons,
      P_get_foldl_update d P hPd F Q rest (fun kv h => hF kv (List.mem_cons_of_mem _ h))]
    by_cases h : k = kv.1
    · subst h
      rw [alistGet_update_self]
      simp only [Option.getD_some, hF kv (List.mem_cons_self kv rest), List.mem_cons]
      constructor
      · rintro (⟨hp | hq⟩ | ⟨kv', hkv', hk, hq⟩)
        · exact Or.inl hp
        · exact Or.inr ⟨kv, Or.inl rfl, rfl, hq⟩
        · exact Or.inr ⟨kv', Or.inr hkv', hk, hq⟩
      · rintro (hp | ⟨kv', hkv' | hkv', hk, hq⟩)
        · exact Or.inl (Or.inl hp)
        · subst hkv'; exact Or.inl (Or.inr hq)
        · exact Or.inr ⟨kv', hkv', hk, hq⟩
    · rw [alistGet_update_other d (F kv) a kv.1 k h]
      simp only [List.mem_cons]
      constructor
      · rintro (hp | ⟨kv', hkv', hk, hq⟩)
        · exact Or.inl hp
        · exact Or.inr ⟨kv', Or.inr hkv', hk, hq⟩
      · rintro (hp | ⟨kv', hkv' | hkv', hk, hq⟩)
        · exact Or.inl hp
        · subst hkv'; exact absurd hk.symm h
        · exact Or.inr ⟨kv', hkv', hk, hq⟩

/-- Under key uniqueness, an existential over the entries of an association
list is membership of the looked-up bucket. -/
theorem exists_entry_iff_get {K W : Type} [DecidableEq K] (P : W → Prop)
    (d : W) (hPd : ¬ P d) :
    ∀ (b : List (K × W)), (b.map Prod.fst).Nodup → ∀ k : K,
      ((∃ kv ∈ b, kv.1 = k ∧ P kv.2) ↔ P ((alistGet b k).getD d))
  | [], _, k => by simpa [alistGet] using hPd
  | kv :: rest, hb, k => by
    simp only [List.map_cons, List.nodup_cons, List.mem_map] at hb
    by_cases h : k = kv.1
    · subst h
      simp only [alistGet, if_pos rfl, Option.getD_some, List.mem_cons]
      constructor
      · rintro ⟨kv', hkv' | hkv', hk, hq⟩
        · subst hkv'; exact hq
        · exact absurd ⟨kv', hkv', hk⟩ hb.1
      · intro hq; exact ⟨kv, Or.inl rfl, rfl, hq⟩
    · rw [alistGet, if_neg h, ← exists_entry_iff_get P d hPd rest hb.2 k]
      simp only [List.mem_cons]
      constructor
      · rintro ⟨kv', hkv' | hkv', hk, hq⟩
        · subst hkv'; exact absurd hk.symm h
        · exact ⟨kv', hkv', hk, hq⟩
      · rintro ⟨kv', hkv', hk, hq⟩
        exact ⟨kv', Or.inr hkv', hk, hq⟩

/-- Membership of a merged bucket map is membership in either operand's
bucket (requires only that the merged-in map has unique keys, as every
`FxHashMap` does). -/
theorem bucketOf_mergeBuckets {K : Type} [DecidableEq K]
    (a b : List (K × List ImplId)) (hb : (b.map Prod.fst).Nodup) (k : K)
    (x : ImplId) :
    x ∈ bucketOf (mergeBuckets a b) k ↔ x ∈ bucketOf a k ∨ x ∈ bucketOf b k := by
  have h1 := P_get_foldl_update (K := K) (W := List ImplId) (V := List ImplId)
    [] (fun v => x ∈ v) (by simp)
    (fun kv v => dedupAdjacent (sortImpls (v ++ kv.2))) (fun kv => x ∈ kv.2)
    b (fun kv _ v => by
      show x ∈ dedupAdjacent (sortImpls (v ++ kv.2)) ↔ x ∈ v ∨ x ∈ kv.2
      rw [mem_dedupAdjacent, mem_sortImpls, List.mem_append])
    a k
  have h2 := exists_entry_iff_get (fun v : List ImplId => x ∈ v) [] (by simp)
    b hb k
  exact h1.trans (or_congr Iff.rfl h2)

/-- Membership of a merged by-trait bucket is membership in either operand's
by-trait bucket. -/
theorem traitBucket_merge (a b : CrateImplDefs)
    (hbO : (b.impls_by_trait.map Prod.fst).Nodup)
    (hbI : ∀ tm ∈ b.impls_by_trait, (tm.2.map Prod.fst).Nodup)
    (tr : TraitId) (fp : Option TyFingerprint) (x : ImplId) :
    x ∈ bucketOf ((alistGet (a.merge b).impls_by_trait tr).getD []) fp ↔
      x ∈ bucketOf ((alistGet a.impls_by_trait tr).getD []) fp ∨
      x ∈ bucketOf ((alistGet b.impls_by_trait tr).getD []) fp := by
  have h1 := P_get_foldl_update (K := TraitId)
    (W := List (Option TyFingerprint × List ImplId))
    (V := List (Option TyFingerprint × List ImplId))
    [] (fun m => x ∈ bucketOf m fp) (by simp [bucketOf, alistGet])
    (fun tm m => mergeBuckets m tm.2) (fun tm => x ∈ bucketOf tm.2 fp)
    b.impls_by_trait
    (fun tm htm m => bucketOf_mergeBuckets m tm.2 (hbI tm htm) fp x)
    a.impls_by_trait tr
  have h2 := exists_entry_iff_get
    (fun m : List (Option TyFingerprint × List ImplId) => x ∈ bucketOf m fp) []
    (by simp [bucketOf, alistGet]) b.impls_by_trait hbO tr
  exact h1.trans (or_congr Iff.rfl h2)

/-- Key uniqueness of a bucket map (every `FxHashMap` satisfies it). -/
def BucketsWF {K : Type} (m : List (K × List ImplId)) : Prop :=
  (m.map Prod.fst).Nodup

/-- Key uniqueness of both maps of a `CrateImplDefs` (inner maps included). -/
def CrateImplDefs.WF (c : CrateImplDefs) : Prop :=
  BucketsWF c.inherent_impls ∧ (c.impls_by_trait.map Prod.fst).Nodup ∧
    ∀ tm ∈ c.impls_by_trait, BucketsWF tm.2

instance {K : Type} [DecidableEq K] (m : List (K × List ImplId)) :
    Decidable (BucketsWF m) :=
  inferInstanceAs (Decidable ((m.map Prod.fst).Nodup))

instance (c : CrateImplDefs) : Decidable c.WF :=
  inferInstanceAs (Decidable (BucketsWF c.inherent_impls ∧
    (c.impls_by_trait.map Prod.fst).Nodup ∧
    ∀ tm ∈ c.impls_by_trait, BucketsWF tm.2))

/-- Membership of an impl id in an inherent bucket. -/
def inhMem (c : CrateImplDefs) (fp : TyFingerprint) (x : ImplId) : Prop :=
  x ∈ bucketOf c.inherent_impls fp

/-- Membership of an impl id in a by-trait bucket. -/
def traitMem (c : CrateImplDefs) (tr : TraitId) (fp : Option TyFingerprint)
    (x : ImplId) : Prop :=
  x ∈ bucketOf ((alistGet c.impls_by_trait tr).getD []) fp

instance (c : CrateImplDefs) (fp : TyFingerprint) (x : ImplId) :
    Decidable (inhMem c fp x) :=
  inferInstanceAs (Decidable (x ∈ bucketOf c.inherent_impls fp))

instance (c : CrateImplDefs) (tr : TraitId) (fp : Option TyFingerprint)
    (x : ImplId) : Decidable (traitMem c tr fp x) :=
  inferInstanceAs (Decidable (x ∈ bucketOf ((alistGet c.impls_by_trait tr).getD []) fp))

/-- C6: `CrateImplDefs::merge` is idempotent — merging `B` into `A` twice
yields the same member sets as merging once — and order-independent — the
final membership of every bucket (inherent and by-trait) does not depend on
the order in which merges are applied.  The merged-in indices are required to
have unique keys, which every hash map has by construction. -/
theorem claim_C6 (A B C : CrateImplDefs) (hB : B.WF) (hC : C.WF) :
    (∀ fp x, (inhMem ((A.merge B).merge B) fp x ↔ inhMem (A.merge B) fp x)) ∧
    (∀ tr fp x,
      (traitMem ((A.merge B).merge B) tr fp x ↔ traitMem (A.merge B) tr fp x)) ∧
    (∀ fp x,
      (inhMem ((A.merge B).merge C) fp x ↔ inhMem ((A.merge C).merge B) fp x)) ∧
    (∀ tr fp x,
      (traitMem ((A.merge B).merge C) tr fp x ↔
        traitMem ((A.merge C).merge B) tr fp x)) := by
  have hI : ∀ (X Y : CrateImplDefs), Y.WF → ∀ fp x,
      (inhMem (X.merge Y) fp x ↔ inhMem X fp x ∨ inhMem Y fp x) :=
    fun X Y hY fp x =>
      bucketOf_mergeBuckets X.inherent_impls Y.inherent_impls hY.1 fp x
  have hT : ∀ (X Y : CrateImplDefs), Y.WF → ∀ tr fp x,
      (traitMem (X.merge Y) tr fp x ↔ traitMem X tr fp x ∨ traitMem Y tr fp x) :=
    fun X Y hY tr fp x => traitBucket_merge X Y hY.2.1 hY.2.2 tr fp x
  refine ⟨fun fp x => ?_, fun tr fp x => ?_, fun fp x => ?_, fun tr fp x => ?_⟩
  · rw [hI (A.merge B) B hB fp x, hI A B hB fp x]; tauto
  · rw [hT (A.merge B) B hB tr fp x, hT A B hB tr fp x]; tauto
  · rw [hI (A.merge B) C hC fp x, hI A B hB fp x, hI (A.merge C) B hB fp x,
      hI A C hC fp x]
    tauto
  · rw [hT (A.merge B) C hC tr fp x, hT A B hB tr fp x,
      hT (A.merge C) B hB tr fp x, hT A C hC tr fp x]
    tauto

/-- A concrete index. -/
def cidA : CrateImplDefs := ⟨[(.Apply .Bool, [2, 1])], []⟩

/-- A concrete index with an inherent and a by-trait bucket. -/
def cidB : CrateImplDefs := ⟨[(.Apply .Bool, [3])], [(7, [(none, [4])])]⟩

/-- A third concrete index. -/
def cidC : CrateImplDefs :=
  ⟨[(.Apply .Char, [5])], [(7, [(some (.Apply .Bool), [6])])]⟩

/-- C6 (witness): the idempotence and order-independence instantiated on
concrete indices and buckets. -/
theorem claim_C6_witness :
    (inhMem ((cidA.merge cidB).merge cidB) (.Apply .Bool) 3 ↔
      inhMem (cidA.merge cidB) (.Apply .Bool) 3) ∧
    (traitMem ((cidA.merge cidB).merge cidC) 7 none 4 ↔
      traitMem ((cidA.merge cidC).merge cidB) 7 none 4) := by
  have h := claim_C6 cidA cidB cidC (by decide) (by decide)
  exact ⟨h.1 (.Apply .Bool) 3, h.2.2.2 7 none 4⟩

/-! ### C4 — lazy per-trait oracle confirmation -/

/-- Once `known_implemented` is set, an item sweep issues no oracle query. -/
theorem traitItemsLoop_known_queries (db : DB) (krate : CrateId)
    (name : Option HirName) (receiver_ty : Option (Canonical Ty))
    (self_ty : Canonical Ty) (cb : Cb) (t : TraitId) :
    ∀ items, (traitItemsLoop db krate name receiver_ty self_ty cb t items
      true).queries = [] := by
  intro items
  induction items with
  | nil => rfl
  | cons item rest ih =>
    cases hv : is_valid_candidate db name receiver_ty item self_ty with
    | false => simp [traitItemsLoop, hv, ih]
    | true =>
      cases hc : cb self_ty.value item with
      | true => simp [traitItemsLoop, hv, hc]
      | false => simp [traitItemsLoop, hv, hc, ih]

/-- An item sweep started with `known_implemented = false` queries the oracle
exactly once if some item passes the filters, never otherwise. -/
theorem traitItemsLoop_queries (db : DB) (krate : CrateId)
    (name : Option HirName) (receiver_ty : Option (Canonical Ty))
    (self_ty : Canonical Ty) (cb : Cb) (t : TraitId) (items : List AssocItemId) :
    (traitItemsLoop db krate name receiver_ty self_ty cb t items false).queries =
      (if items.any (fun item => is_valid_candidate db name receiver_ty item self_ty)
        then [t] else []) := by
  induction items with
  | nil => rfl
  | cons item rest ih =>
    cases hv : is_valid_candidate db name receiver_ty item self_ty with
    | false => simp [traitItemsLoop, hv, ih]
    | true =>
      cases ho : db.trait_solve krate (generic_implements_goal db t self_ty) with
      | false => simp [traitItemsLoop, hv, ho]
      | true =>
        cases hc : cb self_ty.value item with
        | true => simp [traitItemsLoop, hv, ho, hc]
        | false =>
          simp [traitItemsLoop, hv, ho, hc,
            traitItemsLoop_known_queries db krate name receiver_ty self_ty cb t rest]

/-- If the oracle rejects the trait, no item of the sweep is yielded. -/
theorem traitItemsLoop_reject (db : DB) (krate : CrateId)
    (name : Option HirName) (receiver_ty : Option (Canonical Ty))
    (self_ty : Canonical Ty) (cb : Cb) (t : TraitId)
    (ho : db.trait_solve krate (generic_implements_goal db t self_ty) = false) :
    ∀ items,
      (traitItemsLoop db krate name receiver_ty self_ty cb t items false).found
        = false ∧
      (traitItemsLoop db krate name receiver_ty self_ty cb t items false).log
        = [] := by
  intro items
  induction items with
  | nil => exact ⟨rfl, rfl⟩
  | cons item rest ih =>
    cases hv : is_valid_candidate db name receiver_ty item self_ty with
    | false => simpa [traitItemsLoop, hv] using ih
    | true => simp [traitItemsLoop, hv, ho]

/-- The oracle-free reference sweep: yield every filter-passing item until the
callback stops the search. -/
def yieldPassing (db : DB) (name : Option HirName)
    (receiver_ty : Option (Canonical Ty)) (self_ty : Canonical Ty) (cb : Cb) :
    List AssocItemId → ScanRun
  | [] => ⟨false, []⟩
  | item :: items =>
    if is_valid_candidate db name receiver_ty item self_ty then
      if cb self_ty.value item then ⟨true, [(self_ty.value, item)]⟩
      else
        let r := yieldPassing db name receiver_ty self_ty cb items
        ⟨r.found, (self_ty.value, item) :: r.log⟩
    else yieldPassing db name receiver_ty self_ty cb items

/-- If the oracle accepts the trait, the sweep — whatever the initial
`known_implemented` flag — yields exactly the filter-passing items (stopping
at the callback), with no re-query between them. -/
theorem traitItemsLoop_accept (db : DB) (krate : CrateId)
    (name : Option HirName) (receiver_ty : Option (Canonical Ty))
    (self_ty : Canonical Ty) (cb : Cb) (t : TraitId)
    (ho : db.trait_solve krate (generic_implements_goal db t self_ty) = true) :
    ∀ items known,
      (traitItemsLoop db krate name receiver_ty self_ty cb t items known).found
        = (yieldPassing db name receiver_ty self_ty cb items).found ∧
      (traitItemsLoop db krate name receiver_ty self_ty cb t items known).log
        = (yieldPassing db name receiver_ty self_ty cb items).log := by
  intro items
  induction items with
  | nil => intro known; exact ⟨rfl, rfl⟩
  | cons item rest ih =>
    intro known
    cases hv : is_valid_candidate db name receiver_ty item self_ty with
    | false => simpa [traitItemsLoop, yieldPassing, hv] using ih known
    | true =>
      cases hc : cb self_ty.value item with
      | true => cases known <;> simp [traitItemsLoop, yieldPassing, hv, hc, ho]
      | false =>
        cases known <;>
          simp [traitItemsLoop, yieldPassing, hv, hc, ho, (ih true).1, (ih true).2]

/-- Each trait occurrence of the scanned list contributes at most one oracle
query, and only for itself. -/
theorem traitsLoop_queries_count (db : DB) (krate : CrateId)
    (name : Option HirName) (receiver_ty : Option (Canonical Ty))
    (self_ty : Canonical Ty) (cb : Cb) (ts : List TraitId) (t : TraitId) :
    (traitsLoop db krate name receiver_ty self_ty cb ts).queries.count t ≤
      ts.count t := by
  induction ts with
  | nil => simp [traitsLoop]
  | cons t' ts ih =>
    have hq := traitItemsLoop_queries db krate name receiver_ty self_ty cb t'
      (db.trait_items t')
    have hone : (traitItemsLoop db krate name receiver_ty self_ty cb t'
        (db.trait_items t') false).queries.count t ≤ List.count t [t'] := by
      rw [hq]
      by_cases ha : (db.trait_items t').any
          (fun item => is_valid_candidate db name receiver_ty item self_ty)
      · simp [ha]
      · simp [ha]
    by_cases hf : (traitItemsLoop db krate name receiver_ty self_ty cb t'
        (db.trait_items t') false).found
    · simp only [traitsLoop, hf, if_pos]
      calc (traitItemsLoop db krate name receiver_ty self_ty cb t'
            (db.trait_items t') false).queries.count t
          ≤ List.count t [t'] := hone
        _ ≤ (t' :: ts).count t := by
            simp [List.count_cons]
            try omega
    · simp only [traitsLoop, hf, if_neg, Bool.false_eq_true, not_false_iff]
      rw [List.count_append]
      have : List.count t [t'] + ts.count t = (t' :: ts).count t := by
        simp [List.count_cons]
        try omega
      omega

/-- C4 (counterexample): the claim says "for every trait in the universe the
oracle is queried at most once"; with the self type `dyn 3` and trait 3 also
in lexical scope, the scanned trait list is `[3, 3]` (the dyn-trait source
then the in-scope source, without deduplication) and `known_implemented` is
reset for each occurrence, so the oracle is queried twice for trait 3. -/
theorem claim_C4_counterexample :
    (iterate_trait_method_candidates dbEx envEx ⟨0, Ty.Dyn 3⟩ 0 [3] none none
      (fun _ _ => false)).queries = [3, 3] ∧
    ¬ ((iterate_trait_method_candidates dbEx envEx ⟨0, Ty.Dyn 3⟩ 0 [3] none none
      (fun _ _ => false)).queries.count 3 ≤ 1) := by
  decide

/-- C4 (amended): during a trait-candidate scan at a fixed self type, the
oracle is queried at most once per occurrence of a trait in the concatenated
trait-source list (a trait appearing in several sources may be re-queried
once per occurrence); within one trait's item sweep the first filter-passing
item triggers the single query (no passing item, no query); on rejection the
remaining items are skipped with nothing yielded; on acceptance every
subsequent passing item is yielded without re-querying. -/
theorem claim_C4_amended (db : DB) (env : TraitEnvironment)
    (self_ty : Canonical Ty) (krate : CrateId) (traits_in_scope : List TraitId)
    (name : Option HirName) (receiver_ty : Option (Canonical Ty)) (cb : Cb) :
    (∀ t : TraitId,
      (iterate_trait_method_candidates db env self_ty krate traits_in_scope
        name receiver_ty cb).queries.count t ≤
        (traitsUniverse db env self_ty traits_in_scope).count t) ∧
    (∀ (t : TraitId) (items : List AssocItemId),
      (traitItemsLoop db krate name receiver_ty self_ty cb t items false).queries =
        (if items.any (fun item => is_valid_candidate db name receiver_ty item self_ty)
          then [t] else [])) ∧
    (∀ (t : TraitId) (items : List AssocItemId),
      db.trait_solve krate (generic_implements_goal db t self_ty) = false →
      (traitItemsLoop db krate name receiver_ty self_ty cb t items false).found
          = false ∧
        (traitItemsLoop db krate name receiver_ty self_ty cb t items false).log
          = []) ∧
    (∀ (t : TraitId) (items : List AssocItemId),
      db.trait_solve krate (generic_implements_goal db t self_ty) = true →
      (traitItemsLoop db krate name receiver_ty self_ty cb t items false).found
          = (yieldPassing db name receiver_ty self_ty cb items).found ∧
        (traitItemsLoop db krate name receiver_ty self_ty cb t items false).log
          = (yieldPassing db name receiver_ty self_ty cb items).log) := by
  refine ⟨fun t => ?_, fun t items => ?_, fun t items ho => ?_, fun t items ho => ?_⟩
  · exact traitsLoop_queries_count db krate name receiver_ty self_ty cb
      (traitsUniverse db env self_ty traits_in_scope) t
  · exact traitItemsLoop_queries db krate name receiver_ty self_ty cb t items
  · exact traitItemsLoop_reject db krate name receiver_ty self_ty cb t ho items
  · exact traitItemsLoop_accept db krate name receiver_ty self_ty cb t ho items false

/-- The example database with an always-rejecting oracle. -/
def dbExReject : DB := { dbEx with trait_solve := fun _ _ => false }

/-- C4 (witness): the at-most-once bound at a concrete scan, and the
rejection case — no yield — discharged on the always-rejecting oracle. -/
theorem claim_C4_witness :
    ((iterate_trait_method_candidates dbEx envEx ⟨0, Ty.Dyn 3⟩ 0 [4] none none
        (fun _ _ => false)).queries.count 3 ≤
      (traitsUniverse dbEx envEx ⟨0, Ty.Dyn 3⟩ [4]).count 3) ∧
    ((traitItemsLoop dbExReject 0 none none ⟨0, Ty.Apply .Bool []⟩
        (fun _ _ => false) 3 [.ConstId 9] false).found = false ∧
      (traitItemsLoop dbExReject 0 none none ⟨0, Ty.Apply .Bool []⟩
        (fun _ _ => false) 3 [.ConstId 9] false).log = []) :=
  ⟨(claim_C4_amended dbEx envEx ⟨0, Ty.Dyn 3⟩ 0 [4] none none
      (fun _ _ => false)).1 3,
    (claim_C4_amended dbExReject envEx ⟨0, Ty.Apply .Bool []⟩ 0 [] none none
      (fun _ _ => false)).2.2.1 3 [.ConstId 9] rfl⟩

/-! ### C5 — which impl index the inherent scan consults -/

/-- With the never-accepting callback an item sweep never stops the search. -/
theorem inherentItemsLoop_false (db : DB) (name : Option HirName)
    (receiver_ty : Option (Canonical Ty)) (self_ty : Canonical Ty)
    (impl_def : ImplId) :
    ∀ items, (inherentItemsLoop db name receiver_ty self_ty impl_def
      (fun _ _ => false) items).found = false := by
  intro items
  induction items with
  | nil => rfl
  | cons item rest ih =>
    cases hv : is_valid_candidate db name receiver_ty item self_ty with
    | false => simpa [inherentItemsLoop, hv] using ih
    | true =>
      cases hs : receiver_ty.isNone && (inherent_impl_substs db impl_def self_ty).isNone with
      | true => simpa [inherentItemsLoop, hv, hs] using ih
      | false => simp [inherentItemsLoop, hv, hs, ih]

/-- With the never-accepting callback the impl loop walks every impl of the
bucket and records each as consulted. -/
theorem inherentImplsLoop_consulted (db : DB) (name : Option HirName)
    (receiver_ty : Option (Canonical Ty)) (self_ty : Canonical Ty) :
    ∀ impls, (inherentImplsLoop db name receiver_ty self_ty
        (fun _ _ => false) impls).found = false ∧
      (inherentImplsLoop db name receiver_ty self_ty
        (fun _ _ => false) impls).consulted = impls := by
  intro impls
  induction impls with
  | nil => exact ⟨rfl, rfl⟩
  | cons impl_def rest ih =>
    have hitem := inherentItemsLoop_false db name receiver_ty self_ty impl_def
      (db.impl_items impl_def)
    simp [inherentImplsLoop, hitem, ih.1, ih.2]

/-- With the never-accepting callback the crate loop consults, for each
defining crate in order, exactly the inherent bucket delivered by the index
fetcher `idx`. -/
theorem inherentCratesLoopWith_consulted (idx : CrateId → CrateImplDefs)
    (db : DB) (name : Option HirName) (receiver_ty : Option (Canonical Ty))
    (self_ty : Canonical Ty) :
    ∀ ks, (inherentCratesLoopWith idx db name receiver_ty self_ty
        (fun _ _ => false) ks).found = false ∧
      (inherentCratesLoopWith idx db name receiver_ty self_ty
        (fun _ _ => false) ks).consulted =
        ks.flatMap (fun k => (idx k).lookup_impl_defs self_ty.value) := by
  intro ks
  induction ks with
  | nil => exact ⟨rfl, rfl⟩
  | cons k rest ih =>
    have himpl := inherentImplsLoop_consulted db name receiver_ty self_ty
      ((idx k).lookup_impl_defs self_ty.value)
    simp [inherentCratesLoopWith, himpl.1, himpl.2, ih.1, ih.2]

/-- C5 (amended): the inherent-candidate scan consults, for each defining
crate of the self type, exactly that crate's **own** `impls_in_crate` index
bucket for the self type's fingerprint — never merged with the
transitive-dependency index. -/
theorem claim_C5_amended (db : DB) (self_ty : Canonical Ty)
    (name : Option HirName) (receiver_ty : Option (Canonical Ty))
    (krate : CrateId) :
    (iterate_inherent_methods db self_ty name receiver_ty krate
      (fun _ _ => false)).consulted =
      ((Ty.def_crates self_ty.value db krate).getD []).flatMap
        (fun k => (impls_in_crate_query db k).lookup_impl_defs self_ty.value) := by
  cases hdc : Ty.def_crates self_ty.value db krate with
  | none => simp [iterate_inherent_methods, hdc]
  | some cs =>
    simpa [iterate_inherent_methods, hdc] using
      (inherentCratesLoopWith_consulted (impls_in_crate_query db) db name
        receiver_ty self_ty cs).2

/-- C5 (counterexample): `Adt 5` is declared in crate 1, whose dependency
crate 0 contains the inherent impl 10 on `Adt 5`.  The source scan consults
crate 1's own index only and sees nothing; the spec's "own + transitive"
index would consult impl 10 and yield its item. -/
theorem claim_C5_counterexample :
    (iterate_inherent_methods dbEx ⟨0, Ty.Apply (.Adt 5) []⟩ none none 1
      (fun _ _ => false)).consulted = [] ∧
    (iterate_inherent_methods dbEx ⟨0, Ty.Apply (.Adt 5) []⟩ none none 1
      (fun _ _ => false)).log = [] ∧
    (iterate_inherent_methods_specIndex dbEx 2 ⟨0, Ty.Apply (.Adt 5) []⟩ none
      none 1 (fun _ _ => false)).consulted = [10] ∧
    (iterate_inherent_methods_specIndex dbEx 2 ⟨0, Ty.Apply (.Adt 5) []⟩ none
      none 1 (fun _ _ => false)).log =
      [(Ty.Apply (.Adt 5) [], .ConstId 1)] := by
  decide

/-! ### C3 — the self types walked by the autoref receiver variants -/

/-- With the never-accepting callback a trait item sweep never stops the
search, whatever the `known_implemented` flag. -/
theorem traitItemsLoop_false (db : DB) (krate : CrateId) (name : Option HirName)
    (receiver_ty : Option (Canonical Ty)) (self_ty : Canonical Ty) (t : TraitId) :
    ∀ items known, (traitItemsLoop db krate name receiver_ty self_ty
      (fun _ _ => false) t items known).found = false := by
  intro items
  induction items with
  | nil => intro known; rfl
  | cons item rest ih =>
    intro known
    cases hv : is_valid_candidate db name receiver_ty item self_ty with
    | false => simpa [traitItemsLoop, hv] using ih known
    | true =>
      cases known with
      | true => simp [traitItemsLoop, hv, ih true]
      | false =>
        cases ho : db.trait_solve krate (generic_implements_goal db t self_ty) with
        | false => simp [traitItemsLoop, hv, ho]
        | true => simp [traitItemsLoop, hv, ho, ih true]

/-- With the never-accepting callback the trait loop never stops the search. -/
theorem traitsLoop_false (db : DB) (krate : CrateId) (name : Option HirName)
    (receiver_ty : Option (Canonical Ty)) (self_ty : Canonical Ty) :
    ∀ ts, (traitsLoop db krate name receiver_ty self_ty
      (fun _ _ => false) ts).found = false := by
  intro ts
  induction ts with
  | nil => rfl
  | cons t rest ih =>
    have h := traitItemsLoop_false db krate name receiver_ty self_ty t
      (db.trait_items t) false
    simp [traitsLoop, h, ih]

/-- With the never-accepting callback the inherent scan never stops the
search. -/
theorem iterate_inherent_methods_false (db : DB) (self_ty : Canonical Ty)
    (name : Option HirName) (receiver_ty : Option (Canonical Ty))
    (krate : CrateId) :
    (iterate_inherent_methods db self_ty name receiver_ty krate
      (fun _ _ => false)).found = false := by
  cases hdc : Ty.def_crates self_ty.value db krate with
  | none => simp [iterate_inherent_methods, hdc]
  | some cs =>
    simpa [iterate_inherent_methods, hdc] using
      (inherentCratesLoopWith_consulted (impls_in_crate_query db) db name
        receiver_ty self_ty cs).1

/-- A walk over self types whose scans never stop visits every walk element. -/
theorem walkLoop_scanned (scan : Canonical Ty → ScanRun)
    (h : ∀ s, (scan s).found = false) :
    ∀ walk k, (walkLoop scan k walk).found = false ∧
      (walkLoop scan k walk).scanned = walk.map Canonical.value := by
  intro walk
  induction walk with
  | nil => intro k; exact ⟨rfl, rfl⟩
  | cons s ss ih =>
    intro k
    simp [walkLoop, h s, (ih (k + 1)).1, (ih (k + 1)).2]

/-- With the never-accepting callback a by-receiver pass scans the whole walk
twice: once for inherent candidates, once for trait candidates. -/
theorem by_receiver_with_walk_scanned (db : DB) (env : TraitEnvironment)
    (krate : CrateId) (traits_in_scope : List TraitId) (name : Option HirName)
    (receiver_ty : Canonical Ty) (walk : List (Canonical Ty)) :
    (by_receiver_with_walk db env krate traits_in_scope name receiver_ty walk
      (fun _ _ => false)).found = false ∧
    (by_receiver_with_walk db env krate traits_in_scope name receiver_ty walk
      (fun _ _ => false)).scanned =
      walk.map Canonical.value ++ walk.map Canonical.value := by
  have hInh := walkLoop_scanned
    (fun self_ty =>
      let r := iterate_inherent_methods db self_ty name (some receiver_ty)
        krate (fun _ _ => false)
      (⟨r.found, r.log⟩ : ScanRun))
    (fun s => iterate_inherent_methods_false db s name (some receiver_ty) krate)
    walk 0
  have hTr := walkLoop_scanned
    (fun self_ty =>
      let r := iterate_trait_method_candidates db env self_ty krate
        traits_in_scope name (some receiver_ty) (fun _ _ => false)
      (⟨r.found, r.log⟩ : ScanRun))
    (fun s => traitsLoop_false db krate name (some receiver_ty) s
      (traitsUniverse db env s traits_in_scope))
    walk 0
  simp [by_receiver_with_walk, hInh.1, hInh.2, hTr.1, hTr.2]

/-- Modelled from the spec: `iterate_method_candidates_with_autoref` as claim
C3 describes it, the shared- and mutable-autoref receiver variants walking
the self types `[B] ++ D[i..]` — beginning at `B` itself, with `B` repeated
from the chain — instead of beginning at the refed receiver type. -/
def with_autoref_specC3 (db : DB) (env : TraitEnvironment) (krate : CrateId)
    (traits_in_scope : List TraitId) (name : Option HirName)
    (b : Canonical Ty) (rest : List (Canonical Ty)) (cb : Cb) : AutorefRun :=
  let r0 := by_receiver_with_walk db env krate traits_in_scope name b
    (b :: rest) cb
  let l0 := r0.log.map (fun e => ((0 : Nat), e))
  if r0.found then ⟨true, l0, [r0.scanned]⟩
  else
    let r1 := by_receiver_with_walk db env krate traits_in_scope name
      (refedShared b) (b :: b :: rest) cb
    let l1 := r1.log.map (fun e => ((1 : Nat), e))
    if r1.found then ⟨true, l0 ++ l1, [r0.scanned, r1.scanned]⟩
    else
      let r2 := by_receiver_with_walk db env krate traits_in_scope name
        (refedMut b) (b :: b :: rest) cb
      let l2 := r2.log.map (fun e => ((2 : Nat), e))
      ⟨r2.found, l0 ++ l1 ++ l2, [r0.scanned, r1.scanned, r2.scanned]⟩

/-- C3 (counterexample): on the deref-chain suffix `[bool]`, the source's
shared-autoref variant walks the self types `[&bool, bool]` (twice: inherent
pass then trait pass) — its walk begins at the refed receiver `&bool`, not at
`bool` — whereas the claim predicts the walk `[bool, bool]`. -/
theorem claim_C3_counterexample :
    (iterate_method_candidates_with_autoref dbEx envEx 0 [] none
        ⟨0, Ty.Apply .Bool []⟩ [] (fun _ _ => false)).variantScans ≠
      (with_autoref_specC3 dbEx envEx 0 [] none ⟨0, Ty.Apply .Bool []⟩ []
        (fun _ _ => false)).variantScans ∧
    (iterate_method_candidates_with_autoref dbEx envEx 0 [] none
        ⟨0, Ty.Apply .Bool []⟩ [] (fun _ _ => false)).variantScans.getD 1 [] =
      [Ty.apply_one (.Ref .Shared) (Ty.Apply .Bool []), Ty.Apply .Bool [],
        Ty.apply_one (.Ref .Shared) (Ty.Apply .Bool []), Ty.Apply .Bool []] := by
  constructor
  · decide
  · decide

/-- C3 (amended): for every deref-chain suffix `B :: D`, the by-value variant
walks `B :: D`, while the shared- and mutable-autoref variants walk
`&B :: B :: D` and `&mut B :: B :: D` respectively: each autoref walk begins
at the refed receiver type and only then continues with `B` and the rest of
the chain (each full walk is traversed twice — the inherent pass, then the
trait pass). -/
theorem claim_C3_amended (db : DB) (env : TraitEnvironment) (krate : CrateId)
    (traits_in_scope : List TraitId) (name : Option HirName)
    (b : Canonical Ty) (rest : List (Canonical Ty)) :
    (iterate_method_candidates_with_autoref db env krate traits_in_scope name
      b rest (fun _ _ => false)).variantScans =
      [(b :: rest).map Canonical.value ++ (b :: rest).map Canonical.value,
        (refedShared b :: b :: rest).map Canonical.value ++
          (refedShared b :: b :: rest).map Canonical.value,
        (refedMut b :: b :: rest).map Canonical.value ++
          (refedMut b :: b :: rest).map Canonical.value] := by
  have h0 := by_receiver_with_walk_scanned db env krate traits_in_scope name
    b (b :: rest)
  have h1 := by_receiver_with_walk_scanned db env krate traits_in_scope name
    (refedShared b) (refedShared b :: b :: rest)
  have h2 := by_receiver_with_walk_scanned db env krate traits_in_scope name
    (refedMut b) (refedMut b :: b :: rest)
  simp [iterate_method_candidates_with_autoref,
    iterate_method_candidates_by_receiver, h0.1, h0.2, h1.1, h1.2, h2.1, h2.2]

/-! ### C1 — the total candidate precedence order -/

/-- Lexicographic step: strictly smaller outer tag, or equal outer tags and
the inner relation. -/
def lexStep {α : Type} (r : α → α → Prop) (a b : Nat × α) : Prop :=
  a.1 < b.1 ∨ (a.1 = b.1 ∧ r a.2 b.2)

/-- The trivial relation on untagged invocations (two candidates of the same
scan position carry no further precedence). -/
def evTrue (_ _ : Ev) : Prop := True

/-- Precedence on walk-tagged invocations: smaller walk index first. -/
def le1 : T1 → T1 → Prop := lexStep evTrue

/-- Precedence on phase-tagged invocations: inherent before trait, then walk
index. -/
def le2 : T2 → T2 → Prop := lexStep le1

/-- Precedence on variant-tagged invocations: by-value before shared autoref
before mutable autoref, then phase, then walk index. -/
def le3 : T3 → T3 → Prop := lexStep le2

/-- The full precedence: deref-chain level, then receiver variant, then
phase, then walk index. -/
def le4 : T4 → T4 → Prop := lexStep le3

theorem pairwise_trivial (l : List Ev) : l.Pairwise evTrue := by
  induction l with
  | nil => exact List.Pairwise.nil
  | cons a t ih => exact List.Pairwise.cons (fun b _ => trivial) ih

theorem pairwise_map_tag {α : Type} (r : α → α → Prop) (k : Nat) (l : List α)
    (h : l.Pairwise r) : (l.map (fun e => (k, e))).Pairwise (lexStep r) := by
  rw [List.pairwise_map]
  exact h.imp (fun hr => Or.inr ⟨rfl, hr⟩)

theorem mem_map_tag {α : Type} (k : Nat) (l : List α) (e : Nat × α)
    (he : e ∈ l.map (fun x => (k, x))) : e.1 = k := by
  rcases List.mem_map.mp he with ⟨x, _, rfl⟩
  rfl

theorem pairwise_tag_append {α : Type} (r : α → α → Prop) (j k : Nat)
    (hjk : j < k) (l1 l2 : List α) (h1 : l1.Pairwise r) (h2 : l2.Pairwise r) :
    (l1.map (fun e => (j, e)) ++ l2.map (fun e => (k, e))).Pairwise (lexStep r) := by
  rw [List.pairwise_append]
  exact ⟨pairwise_map_tag r j l1 h1, pairwise_map_tag r k l2 h2,
    fun a ha b hb =>
      Or.inl (by rw [mem_map_tag j l1 a ha, mem_map_tag k l2 b hb]; exact hjk)⟩

theorem pairwise_tag_append3 {α : Type} (r : α → α → Prop) (l0 l1 l2 : List α)
    (h0 : l0.Pairwise r) (h1 : l1.Pairwise r) (h2 : l2.Pairwise r) :
    ((l0.map (fun e => ((0 : Nat), e)) ++ l1.map (fun e => ((1 : Nat), e))) ++
      l2.map (fun e => ((2 : Nat), e))).Pairwise (lexStep r) := by
  rw [List.pairwise_append]
  refine ⟨pairwise_tag_append r 0 1 (by omega) l0 l1 h0 h1,
    pairwise_map_tag r 2 l2 h2, ?_⟩
  intro a ha b hb
  have hb2 : b.1 = 2 := mem_map_tag 2 l2 b hb
  rcases List.mem_append.mp ha with ha | ha
  · have ha0 : a.1 = 0 := mem_map_tag 0 l0 a ha
    exact Or.inl (by omega)
  · have ha1 : a.1 = 1 := mem_map_tag 1 l1 a ha
    exact Or.inl (by omega)

/-- Every invocation of a walk started at index `k` carries a tag `≥ k`. -/
theorem walkLoop_tag_ge (scan : Canonical Ty → ScanRun) :
    ∀ walk k (e : T1), e ∈ (walkLoop scan k walk).log → k ≤ e.1 := by
  intro walk
  induction walk with
  | nil =>
    intro k e he
    simp [walkLoop] at he
  | cons s ss ih =>
    intro k e he
    cases hf : (scan s).found with
    | true =>
      rw [walkLoop] at he
      simp only [hf, if_pos] at he
      rw [mem_map_tag k _ e he]
    | false =>
      rw [walkLoop] at he
      simp only [hf, Bool.false_eq_true, if_neg, not_false_iff] at he
      rcases List.mem_append.mp he with he | he
      · rw [mem_map_tag k _ e he]
      · exact Nat.le_of_succ_le (ih (k + 1) e he)

/-- The invocations of a walk are ordered by walk index. -/
theorem walkLoop_pairwise (scan : Canonical Ty → ScanRun) :
    ∀ walk k, ((walkLoop scan k walk).log).Pairwise le1 := by
  intro walk
  induction walk with
  | nil => intro k; simp [walkLoop]
  | cons s ss ih =>
    intro k
    cases hf : (scan s).found with
    | true =>
      rw [walkLoop]
      simp only [hf, if_pos]
      exact pairwise_map_tag evTrue k _ (pairwise_trivial _)
    | false =>
      rw [walkLoop]
      simp only [hf, Bool.false_eq_true, if_neg, not_false_iff]
      rw [List.pairwise_append]
      refine ⟨pairwise_map_tag evTrue k _ (pairwise_trivial _), ih (k + 1), ?_⟩
      intro a ha b hb
      have h1 : a.1 = k := mem_map_tag k _ a ha
      have h2 : k + 1 ≤ b.1 := walkLoop_tag_ge scan ss (k + 1) b hb
      exact Or.inl (by omega)

/-- The invocations of a by-receiver pass are ordered by (phase, walk index). -/
theorem by_receiver_with_walk_pairwise (db : DB) (env : TraitEnvironment)
    (krate : CrateId) (traits_in_scope : List TraitId) (name : Option HirName)
    (receiver_ty : Canonical Ty) (walk : List (Canonical Ty)) (cb : Cb) :
    ((by_receiver_with_walk db env krate traits_in_scope name receiver_ty walk
      cb).log).Pairwise le2 := by
  rw [by_receiver_with_walk]
  split
  · exact pairwise_map_tag le1 0 _ (walkLoop_pairwise _ walk 0)
  · exact pairwise_tag_append le1 0 1 (by omega) _ _
      (walkLoop_pairwise _ walk 0) (walkLoop_pairwise _ walk 0)

/-- The invocations of one deref level are ordered by
(variant, phase, walk index). -/
theorem with_autoref_pairwise (db : DB) (env : TraitEnvironment)
    (krate : CrateId) (traits_in_scope : List TraitId) (name : Option HirName)
    (b : Canonical Ty) (rest : List (Canonical Ty)) (cb : Cb) :
    ((iterate_method_candidates_with_autoref db env krate traits_in_scope name
      b rest cb).log).Pairwise le3 := by
  rw [iterate_method_candidates_with_autoref]
  split
  · exact pairwise_map_tag le2 0 _
      (by_receiver_with_walk_pairwise db env krate traits_in_scope name b _ cb)
  · dsimp only
    split
    · exact pairwise_tag_append le2 0 1 (by omega) _ _
        (by_receiver_with_walk_pairwise db env krate traits_in_scope name b _ cb)
        (by_receiver_with_walk_pairwise db env krate traits_in_scope name _ _ cb)
    · exact pairwise_tag_append3 le2 _ _ _
        (by_receiver_with_walk_pairwise db env krate traits_in_scope name b _ cb)
        (by_receiver_with_walk_pairwise db env krate traits_in_scope name _ _ cb)
        (by_receiver_with_walk_pairwise db env krate traits_in_scope name _ _ cb)

/-- Every invocation of the level loop started at level `i` carries a level
tag `≥ i`. -/
theorem methodCallLoop_tag_ge (db : DB) (env : TraitEnvironment)
    (krate : CrateId) (traits_in_scope : List TraitId) (name : Option HirName)
    (cb : Cb) :
    ∀ chain i (e : T4),
      e ∈ (methodCallLoop db env krate traits_in_scope name cb i chain).log →
      i ≤ e.1 := by
  intro chain
  induction chain with
  | nil =>
    intro i e he
    simp [methodCallLoop] at he
  | cons b rest ih =>
    intro i e he
    cases hf : (iterate_method_candidates_with_autoref db env krate
        traits_in_scope name b rest cb).found with
    | true =>
      rw [methodCallLoop] at he
      simp only [hf, if_pos] at he
      rw [mem_map_tag i _ e he]
    | false =>
      rw [methodCallLoop] at he
      simp only [hf, Bool.false_eq_true, if_neg, not_false_iff] at he
      rcases List.mem_append.mp he with he | he
      · rw [mem_map_tag i _ e he]
      · exact Nat.le_of_succ_le (ih (i + 1) e he)

/-- The invocations of the level loop are ordered by the full precedence. -/
theorem methodCallLoop_pairwise (db : DB) (env : TraitEnvironment)
    (krate : CrateId) (traits_in_scope : List TraitId) (name : Option HirName)
    (cb : Cb) :
    ∀ chain i,
      ((methodCallLoop db env krate traits_in_scope name cb i chain).log).Pairwise
        le4 := by
  intro chain
  induction chain with
  | nil => intro i; simp [methodCallLoop]
  | cons b rest ih =>
    intro i
    cases hf : (iterate_method_candidates_with_autoref db env krate
        traits_in_scope name b rest cb).found with
    | true =>
      rw [methodCallLoop]
      simp only [hf, if_pos]
      exact pairwise_map_tag le3 i _
        (with_autoref_pairwise db env krate traits_in_scope name b rest cb)
    | false =>
      rw [methodCallLoop]
      simp only [hf, Bool.false_eq_true, if_neg, not_false_iff]
      rw [List.pairwise_append]
      refine ⟨pairwise_map_tag le3 i _
        (with_autoref_pairwise db env krate traits_in_scope name b rest cb),
        ih (i + 1), ?_⟩
      intro a ha b' hb'
      have h1 : a.1 = i := mem_map_tag i _ a ha
      have h2 : i + 1 ≤ b'.1 :=
        methodCallLoop_tag_ge db env krate traits_in_scope name cb rest (i + 1)
          b' hb'
      exact Or.inl (by omega)

/-- C1: in MethodCall mode, for every receiver and every callback, the
candidate invocations are emitted in the total precedence order — smaller
deref-chain level first; within a level, by-value before shared autoref
before mutable autoref; within a level and variant, every inherent candidate
of the whole self-type walk before any trait candidate; and within the
inherent (resp. trait) pass, nearer self types (smaller walk index) before
farther ones. -/
theorem claim_C1 (db : DB) (env : TraitEnvironment) (krate : CrateId)
    (traits_in_scope : List TraitId) (name : Option HirName)
    (ty : Canonical Ty) (cb : Cb) :
    ((iterate_method_candidates_impl db env krate traits_in_scope name
      .MethodCall ty cb).log).Pairwise le4 :=
  methodCallLoop_pairwise db env krate traits_in_scope name cb
    (autoderef_method_receiver db krate ty) 0

/-! ### C10 — the single-result wrapper's internal assertion -/

/-- A search run stops properly for the per-invocation predicate `p`: when it
reports found, its log ends with the single accepting invocation and every
earlier invocation rejected; when it reports not-found, every invocation
rejected.  In particular the callback is never invoked again after accepting. -/
def RunOk {E : Type} (p : E → Bool) : Bool → List E → Prop
  | true, log => ∃ l0 e, log = l0 ++ [e] ∧ p e = true ∧ ∀ x ∈ l0, p x = false
  | false, log => ∀ x ∈ log, p x = false

theorem RunOk.nil {E : Type} (p : E → Bool) : RunOk p false [] := by
  intro x hx
  simp at hx

theorem RunOk.all_false {E : Type} {p : E → Bool} {log : List E}
    (h : RunOk p false log) : ∀ x ∈ log, p x = false := h

theorem RunOk.single {E : Type} (p : E → Bool) (e : E) (he : p e = true) :
    RunOk p true [e] :=
  ⟨[], e, rfl, he, by intro x hx; simp at hx⟩

theorem RunOk.cons_false {E : Type} (p : E → Bool) (e : E) (he : p e = false)
    {found : Bool} {log : List E} (h : RunOk p found log) :
    RunOk p found (e :: log) := by
  cases found with
  | false =>
    intro x hx
    rcases List.mem_cons.mp hx with rfl | hx
    · exact he
    · exact h x hx
  | true =>
    obtain ⟨l0, e', hsplit, hpe, hall⟩ := h
    refine ⟨e :: l0, e', by rw [hsplit]; rfl, hpe, ?_⟩
    intro x hx
    rcases List.mem_cons.mp hx with rfl | hx
    · exact he
    · exact hall x hx

theorem RunOk.seq {E : Type} (p : E → Bool) {log1 : List E}
    (h1 : ∀ x ∈ log1, p x = false) {found2 : Bool} {log2 : List E}
    (h2 : RunOk p found2 log2) : RunOk p found2 (log1 ++ log2) := by
  cases found2 with
  | false =>
    intro x hx
    rcases List.mem_append.mp hx with hx | hx
    · exact h1 x hx
    · exact h2 x hx
  | true =>
    obtain ⟨l0, e, hs, hp, ha⟩ := h2
    refine ⟨log1 ++ l0, e, by rw [hs, List.append_assoc], hp, ?_⟩
    intro x hx
    rcases List.mem_append.mp hx with hx | hx
    · exact h1 x hx
    · exact ha x hx

theorem RunOk.map {E F : Type} (p : E → Bool) (q : F → Bool) (f : E → F)
    (hf : ∀ e, q (f e) = p e) {found : Bool} {log : List E}
    (h : RunOk p found log) : RunOk q found (log.map f) := by
  cases found with
  | false =>
    intro x hx
    rcases List.mem_map.mp hx with ⟨e, he, rfl⟩
    rw [hf]
    exact h e he
  | true =>
    obtain ⟨l0, e, hs, hp, ha⟩ := h
    refine ⟨l0.map f, f e, by rw [hs]; simp, by rw [hf]; exact hp, ?_⟩
    intro x hx
    rcases List.mem_map.mp hx with ⟨e', he', rfl⟩
    rw [hf]
    exact ha e' he'

/-- The search callback applied to an untagged invocation. -/
def cbEv (cb : Cb) : Ev → Bool := fun e => cb e.1 e.2

/-- The search callback applied through one tag. -/
def cbT1 (cb : Cb) : T1 → Bool := fun e => cbEv cb e.2

/-- The search callback applied through two tags. -/
def cbT2 (cb : Cb) : T2 → Bool := fun e => cbT1 cb e.2

/-- The search callback applied through three tags. -/
def cbT3 (cb : Cb) : T3 → Bool := fun e => cbT2 cb e.2

/-- The search callback applied through four tags. -/
def cbT4 (cb : Cb) : T4 → Bool := fun e => cbT3 cb e.2

theorem inherentItemsLoop_runOk (db : DB) (name : Option HirName)
    (receiver_ty : Option (Canonical Ty)) (self_ty : Canonical Ty)
    (impl_def : ImplId) (cb : Cb) :
    ∀ items,
      RunOk (cbEv cb)
        (inherentItemsLoop db name receiver_ty self_ty impl_def cb items).found
        (inherentItemsLoop db name receiver_ty self_ty impl_def cb items).log := by
  intro items
  induction items with
  | nil => exact RunOk.nil _
  | cons item rest ih =>
    cases hv : is_valid_candidate db name receiver_ty item self_ty with
    | false => simpa [inherentItemsLoop, hv] using ih
    | true =>
      cases hs : receiver_ty.isNone &&
          (inherent_impl_substs db impl_def self_ty).isNone with
      | true => simpa [inherentItemsLoop, hv, hs] using ih
      | false =>
        cases hc : cb self_ty.value item with
        | true =>
          simp only [inherentItemsLoop, hv, hs, hc, Bool.not_true,
            Bool.false_eq_true, if_neg, if_pos, not_false_iff]
          exact RunOk.single (cbEv cb) (self_ty.value, item) hc
        | false =>
          simp only [inherentItemsLoop, hv, hs, hc, Bool.not_true,
            Bool.false_eq_true, if_neg, if_pos, not_false_iff]
          exact RunOk.cons_false (cbEv cb) (self_ty.value, item) hc ih

theorem traitItemsLoop_runOk (db : DB) (krate : CrateId) (name : Option HirName)
    (receiver_ty : Option (Canonical Ty)) (self_ty : Canonical Ty) (cb : Cb)
    (t : TraitId) :
    ∀ items known,
      RunOk (cbEv cb)
        (traitItemsLoop db krate name receiver_ty self_ty cb t items known).found
        (traitItemsLoop db krate name receiver_ty self_ty cb t items known).log := by
  intro items
  induction items with
  | nil => intro known; exact RunOk.nil _
  | cons item rest ih =>
    intro known
    cases hv : is_valid_candidate db name receiver_ty item self_ty with
    | false => simpa [traitItemsLoop, hv] using ih known
    | true =>
      cases known with
      | true =>
        cases hc : cb self_ty.value item with
        | true =>
          simp only [traitItemsLoop, hv, hc, Bool.not_true, Bool.not_false,
            Bool.false_eq_true, if_neg, if_pos, not_false_iff]
          exact RunOk.single (cbEv cb) (self_ty.value, item) hc
        | false =>
          simp only [traitItemsLoop, hv, hc, Bool.not_true, Bool.not_false,
            Bool.false_eq_true, if_neg, if_pos, not_false_iff]
          exact RunOk.cons_false (cbEv cb) (self_ty.value, item) hc (ih true)
      | false =>
        cases ho : db.trait_solve krate (generic_implements_goal db t self_ty) with
        | false =>
          simp only [traitItemsLoop, hv, ho, Bool.not_true, Bool.not_false,
            Bool.false_eq_true, if_neg, if_pos, not_false_iff]
          exact RunOk.nil _
        | true =>
          cases hc : cb self_ty.value item with
          | true =>
            simp only [traitItemsLoop, hv, ho, hc, Bool.not_true, Bool.not_false,
              Bool.false_eq_true, if_neg, if_pos, not_false_iff]
            exact RunOk.single (cbEv cb) (self_ty.value, item) hc
          | false =>
            simp only [traitItemsLoop, hv, ho, hc, Bool.not_true, Bool.not_false,
              Bool.false_eq_true, if_neg, if_pos, not_false_iff]
            exact RunOk.cons_false (cbEv cb) (self_ty.value, item) hc (ih true)

theorem traitsLoop_runOk (db : DB) (krate : CrateId) (name : Option HirName)
    (receiver_ty : Option (Canonical Ty)) (self_ty : Canonical Ty) (cb : Cb) :
    ∀ ts,
      RunOk (cbEv cb) (traitsLoop db krate name receiver_ty self_ty cb ts).found
        (traitsLoop db krate name receiver_ty self_ty cb ts).log := by
  intro ts
  induction ts with
  | nil => exact RunOk.nil _
  | cons t rest ih =>
    have h := traitItemsLoop_runOk db krate name receiver_ty self_ty cb t
      (db.trait_items t) false
    cases hf : (traitItemsLoop db krate name receiver_ty self_ty cb t
        (db.trait_items t) false).found with
    | true =>
      simp only [traitsLoop, hf, if_pos]
      rw [hf] at h
      exact h
    | false =>
      simp only [traitsLoop, hf, Bool.false_eq_true, if_neg, not_false_iff]
      rw [hf] at h
      exact RunOk.seq (cbEv cb) (RunOk.all_false h) ih

theorem inherentImplsLoop_runOk (db : DB) (name : Option HirName)
    (receiver_ty : Option (Canonical Ty)) (self_ty : Canonical Ty) (cb : Cb) :
    ∀ impls,
      RunOk (cbEv cb)
        (inherentImplsLoop db name receiver_ty self_ty cb impls).found
        (inherentImplsLoop db name receiver_ty self_ty cb impls).log := by
  intro impls
  induction impls with
  | nil => exact RunOk.nil _
  | cons impl_def rest ih =>
    have h := inherentItemsLoop_runOk db name receiver_ty self_ty impl_def cb
      (db.impl_items impl_def)
    cases hf : (inherentItemsLoop db name receiver_ty self_ty impl_def cb
        (db.impl_items impl_def)).found with
    | true =>
      simp only [inherentImplsLoop, hf, if_pos]
      rw [hf] at h
      exact h
    | false =>
      simp only [inherentImplsLoop, hf, Bool.false_eq_true, if_neg, not_false_iff]
      rw [hf] at h
      exact RunOk.seq (cbEv cb) (RunOk.all_false h) ih

theorem inherentCratesLoopWith_runOk (idx : CrateId → CrateImplDefs) (db : DB)
    (name : Option HirName) (receiver_ty : Option (Canonical Ty))
    (self_ty : Canonical Ty) (cb : Cb) :
    ∀ ks,
      RunOk (cbEv cb)
        (inherentCratesLoopWith idx db name receiver_ty self_ty cb ks).found
        (inherentCratesLoopWith idx db name receiver_ty self_ty cb ks).log := by
  intro ks
  induction ks with
  | nil => exact RunOk.nil _
  | cons k rest ih =>
    have h := inherentImplsLoop_runOk db name receiver_ty self_ty cb
      ((idx k).lookup_impl_defs self_ty.value)
    cases hf : (inherentImplsLoop db name receiver_ty self_ty cb
        ((idx k).lookup_impl_defs self_ty.value)).found with
    | true =>
      simp only [inherentCratesLoopWith, hf, if_pos]
      rw [hf] at h
      exact h
    | false =>
      simp only [inherentCratesLoopWith, hf, Bool.false_eq_true, if_neg,
        not_false_iff]
      rw [hf] at h
      exact RunOk.seq (cbEv cb) (RunOk.all_false h) ih

theorem iterate_inherent_methods_runOk (db : DB) (self_ty : Canonical Ty)
    (name : Option HirName) (receiver_ty : Option (Canonical Ty))
    (krate : CrateId) (cb : Cb) :
    RunOk (cbEv cb)
      (iterate_inherent_methods db self_ty name receiver_ty krate cb).found
      (iterate_inherent_methods db self_ty name receiver_ty krate cb).log := by
  cases hdc : Ty.def_crates self_ty.value db krate with
  | none =>
    simp only [iterate_inherent_methods, hdc]
    exact RunOk.nil _
  | some cs =>
    simpa [iterate_inherent_methods, hdc] using
      inherentCratesLoopWith_runOk (impls_in_crate_query db) db name receiver_ty
        self_ty cb cs

theorem walkLoop_runOk {p : Ev → Bool} (scan : Canonical Ty → ScanRun)
    (hscan : ∀ s, RunOk p (scan s).found (scan s).log) :
    ∀ walk k,
      RunOk (fun e : T1 => p e.2) (walkLoop scan k walk).found
        (walkLoop scan k walk).log := by
  intro walk
  induction walk with
  | nil => intro k; exact RunOk.nil _
  | cons s ss ih =>
    intro k
    cases hf : (scan s).found with
    | true =>
      rw [walkLoop]
      simp only [hf, if_pos]
      have h := hscan s
      rw [hf] at h
      exact RunOk.map p (fun e : T1 => p e.2) (fun e => (k, e)) (fun e => rfl) h
    | false =>
      rw [walkLoop]
      simp only [hf, Bool.false_eq_true, if_neg, not_false_iff]
      have h := hscan s
      rw [hf] at h
      exact RunOk.seq (fun e : T1 => p e.2)
        (RunOk.all_false
          (RunOk.map p (fun e : T1 => p e.2) (fun e => (k, e)) (fun e => rfl) h))
        (ih (k + 1))

theorem by_receiver_with_walk_runOk (db : DB) (env : TraitEnvironment)
    (krate : CrateId) (traits_in_scope : List TraitId) (name : Option HirName)
    (receiver_ty : Canonical Ty) (walk : List (Canonical Ty)) (cb : Cb) :
    RunOk (cbT2 cb)
      (by_receiver_with_walk db env krate traits_in_scope name receiver_ty walk
        cb).found
      (by_receiver_with_walk db env krate traits_in_scope name receiver_ty walk
        cb).log := by
  have hI := walkLoop_runOk (p := cbEv cb)
    (fun self_ty =>
      let r := iterate_inherent_methods db self_ty name (some receiver_ty)
        krate cb
      (⟨r.found, r.log⟩ : ScanRun))
    (fun s => iterate_inherent_methods_runOk db s name (some receiver_ty) krate cb)
    walk 0
  have hT := walkLoop_runOk (p := cbEv cb)
    (fun self_ty =>
      let r := iterate_trait_method_candidates db env self_ty krate
        traits_in_scope name (some receiver_ty) cb
      (⟨r.found, r.log⟩ : ScanRun))
    (fun s => traitsLoop_runOk db krate name (some receiver_ty) s cb
      (traitsUniverse db env s traits_in_scope))
    walk 0
  rw [by_receiver_with_walk]
  cases hf : (walkLoop
      (fun self_ty =>
        let r := iterate_inherent_methods db self_ty name (some receiver_ty)
          krate cb
        (⟨r.found, r.log⟩ : ScanRun)) 0 walk).found with
  | true =>
    simp only [hf, if_pos]
    rw [hf] at hI
    exact RunOk.map (cbT1 cb) (cbT2 cb) (fun e => ((0 : Nat), e))
      (fun e => rfl) hI
  | false =>
    simp only [hf, Bool.false_eq_true, if_neg, not_false_iff]
    rw [hf] at hI
    exact RunOk.seq (cbT2 cb)
      (RunOk.all_false
        (RunOk.map (cbT1 cb) (cbT2 cb) (fun e => ((0 : Nat), e))
          (fun e => rfl) hI))
      (RunOk.map (cbT1 cb) (cbT2 cb) (fun e => ((1 : Nat), e))
        (fun e => rfl) hT)

theorem with_autoref_runOk (db : DB) (env : TraitEnvironment) (krate : CrateId)
    (traits_in_scope : List TraitId) (name : Option HirName) (b : Canonical Ty)
    (rest : List (Canonical Ty)) (cb : Cb) :
    RunOk (cbT3 cb)
      (iterate_method_candidates_with_autoref db env krate traits_in_scope name
        b rest cb).found
      (iterate_method_candidates_with_autoref db env krate traits_in_scope name
        b rest cb).log := by
  have h0 := by_receiver_with_walk_runOk db env krate traits_in_scope name b
    (b :: rest) cb
  have h1 := by_receiver_with_walk_runOk db env krate traits_in_scope name
    (refedShared b) (refedShared b :: b :: rest) cb
  have h2 := by_receiver_with_walk_runOk db env krate traits_in_scope name
    (refedMut b) (refedMut b :: b :: rest) cb
  rw [iterate_method_candidates_with_autoref]
  simp only [iterate_method_candidates_by_receiver] at h0 h1 h2 ⊢
  cases hf0 : (by_receiver_with_walk db env krate traits_in_scope name b
      (b :: rest) cb).found with
  | true =>
    simp only [hf0, if_pos]
    rw [hf0] at h0
    exact RunOk.map (cbT2 cb) (cbT3 cb) (fun e => ((0 : Nat), e))
      (fun e => rfl) h0
  | false =>
    rw [hf0] at h0
    simp only [hf0, Bool.false_eq_true, if_neg, not_false_iff]
    cases hf1 : (by_receiver_with_walk db env krate traits_in_scope name
        (refedShared b) (refedShared b :: b :: rest) cb).found with
    | true =>
      simp only [hf1, if_pos]
      rw [hf1] at h1
      exact RunOk.seq (cbT3 cb)
        (RunOk.all_false
          (RunOk.map (cbT2 cb) (cbT3 cb) (fun e => ((0 : Nat), e))
            (fun e => rfl) h0))
        (RunOk.map (cbT2 cb) (cbT3 cb) (fun e => ((1 : Nat), e))
          (fun e => rfl) h1)
    | false =>
      rw [hf1] at h1
      simp only [hf1, Bool.false_eq_true, if_neg, not_false_iff]
      rw [List.append_assoc]
      exact RunOk.seq (cbT3 cb)
        (RunOk.all_false
          (RunOk.map (cbT2 cb) (cbT3 cb) (fun e => ((0 : Nat), e))
            (fun e => rfl) h0))
        (RunOk.seq (cbT3 cb)
          (RunOk.all_false
            (RunOk.map (cbT2 cb) (cbT3 cb) (fun e => ((1 : Nat), e))
              (fun e => rfl) h1))
          (RunOk.map (cbT2 cb) (cbT3 cb) (fun e => ((2 : Nat), e))
            (fun e => rfl) h2))

theorem methodCallLoop_runOk (db : DB) (env : TraitEnvironment)
    (krate : CrateId) (traits_in_scope : List TraitId) (name : Option HirName)
    (cb : Cb) :
    ∀ chain i,
      RunOk (cbT4 cb)
        (methodCallLoop db env krate traits_in_scope name cb i chain).found
        (methodCallLoop db env krate traits_in_scope name cb i chain).log := by
  intro chain
  induction chain with
  | nil => intro i; exact RunOk.nil _
  | cons b rest ih =>
    intro i
    have h := with_autoref_runOk db env krate traits_in_scope name b rest cb
    cases hf : (iterate_method_candidates_with_autoref db env krate
        traits_in_scope name b rest cb).found with
    | true =>
      rw [methodCallLoop]
      simp only [hf, if_pos]
      rw [hf] at h
      exact RunOk.map (cbT3 cb) (cbT4 cb) (fun e => (i, e)) (fun e => rfl) h
    | false =>
      rw [methodCallLoop]
      simp only [hf, Bool.false_eq_true, if_neg, not_false_iff]
      rw [hf] at h
      exact RunOk.seq (cbT4 cb)
        (RunOk.all_false
          (RunOk.map (cbT3 cb) (cbT4 cb) (fun e => (i, e)) (fun e => rfl) h))
        (ih (i + 1))

theorem iterate_method_candidates_for_self_ty_runOk (db : DB)
    (env : TraitEnvironment) (krate : CrateId) (traits_in_scope : List TraitId)
    (name : Option HirName) (self_ty : Canonical Ty) (cb : Cb) :
    RunOk (cbT2 cb)
      (iterate_method_candidates_for_self_ty db env krate traits_in_scope name
        self_ty cb).found
      (iterate_method_candidates_for_self_ty db env krate traits_in_scope name
        self_ty cb).log := by
  have hI := iterate_inherent_methods_runOk db self_ty name none krate cb
  have hT := traitsLoop_runOk db krate name none self_ty cb
    (traitsUniverse db env self_ty traits_in_scope)
  rw [iterate_method_candidates_for_self_ty]
  cases hf : (iterate_inherent_methods db self_ty name none krate cb).found with
  | true =>
    simp only [hf, if_pos]
    rw [hf] at hI
    exact RunOk.map (cbEv cb) (cbT2 cb) (fun e => ((0 : Nat), ((0 : Nat), e)))
      (fun e => rfl) hI
  | false =>
    simp only [hf, Bool.false_eq_true, if_neg, not_false_iff]
    rw [hf] at hI
    exact RunOk.seq (cbT2 cb)
      (RunOk.all_false
        (RunOk.map (cbEv cb) (cbT2 cb) (fun e => ((0 : Nat), ((0 : Nat), e)))
          (fun e => rfl) hI))
      (RunOk.map (cbEv cb) (cbT2 cb) (fun e => ((1 : Nat), ((0 : Nat), e)))
        (fun e => rfl) hT)

theorem iterate_method_candidates_impl_runOk (db : DB) (env : TraitEnvironment)
    (krate : CrateId) (traits_in_scope : List TraitId) (name : Option HirName)
    (mode : LookupMode) (ty : Canonical Ty) (cb : Cb) :
    RunOk (cbT4 cb)
      (iterate_method_candidates_impl db env krate traits_in_scope name mode ty
        cb).found
      (iterate_method_candidates_impl db env krate traits_in_scope name mode ty
        cb).log := by
  cases mode with
  | MethodCall =>
    exact methodCallLoop_runOk db env krate traits_in_scope name cb
      (autoderef_method_receiver db krate ty) 0
  | Path =>
    have h := iterate_method_candidates_for_self_ty_runOk db env krate
      traits_in_scope name ty cb
    exact RunOk.map (cbT2 cb) (cbT4 cb) (fun e => ((0 : Nat), ((0 : Nat), e)))
      (fun e => rfl) h

/-- C10: the single-result wrapper's internal assertion holds on every input:
whenever the underlying search makes an invocation that is **not** the last
of its invocation sequence, the user callback returned none there — so at
every invocation the slot is still empty and the `assert!(slot.is_none())`
branch never aborts, since the search halts as soon as the callback produces
a result. -/
theorem claim_C10 (db : DB) (env : TraitEnvironment) (krate : CrateId)
    (traits_in_scope : List TraitId) (name : Option HirName) (mode : LookupMode)
    (ty : Canonical Ty) {T : Type} (callback : Ty → AssocItemId → Option T)
    (l0 : List T4) (e : T4) (l1 : List T4)
    (hsplit : (iterate_method_candidates_impl db env krate traits_in_scope name
      mode ty (fun t item => (callback t item).isSome)).log = l0 ++ e :: l1)
    (hne : l1 ≠ []) :
    callback (evOf e).1 (evOf e).2 = none := by
  have h := iterate_method_candidates_impl_runOk db env krate traits_in_scope
    name mode ty (fun t item => (callback t item).isSome)
  have hfalse : cbT4 (fun t item => (callback t item).isSome) e = false := by
    cases hf : (iterate_method_candidates_impl db env krate traits_in_scope name
        mode ty (fun t item => (callback t item).isSome)).found with
    | false =>
      rw [hf] at h
      exact h e (by rw [hsplit]; exact List.mem_append_right l0 (List.mem_cons_self e l1))
    | true =>
      rw [hf] at h
      obtain ⟨pre, last, hs, hp, hall⟩ := h
      rcases List.eq_nil_or_concat l1 with rfl | ⟨l1i, z, rfl⟩
      · exact absurd rfl hne
      · have hsplit2 : pre ++ [last] = (l0 ++ e :: l1i) ++ [z] := by
          rw [← hs, hsplit]
          simp
        have := List.append_inj' hsplit2 rfl
        apply hall
        rw [this.1]
        exact List.mem_append_right l0 (List.mem_cons_self e l1i)
  have : (callback (evOf e).1 (evOf e).2).isSome = false := hfalse
  cases hres : callback (evOf e).1 (evOf e).2 with
  | none => rfl
  | some v => rw [hres] at this; simp at this

/-- First invocation of the C10 witness run (impl 12's first const). -/
def eC10a : T4 := (0, (0, (0, (0, (Ty.Apply (.Adt 6) [], .ConstId 1)))))

/-- Second invocation of the C10 witness run (impl 12's second const). -/
def eC10b : T4 := (0, (0, (0, (0, (Ty.Apply (.Adt 6) [], .ConstId 2)))))

/-- C10 (witness): a Path-mode lookup on `Adt 6` enumerates the two const
items of impl 12, so the search makes a non-final invocation; the theorem
discharges the assertion there. -/
theorem claim_C10_witness :
    (fun (_ : Ty) (_ : AssocItemId) => (none : Option Unit)) (evOf eC10a).1
      (evOf eC10a).2 = none :=
  claim_C10 dbEx envEx 0 [] none .Path ⟨0, Ty.Apply (.Adt 6) []⟩
    (fun _ _ => (none : Option Unit)) [] eC10a [eC10b] (by decide) (by decide)

end MethodResolution
